import Mathlib

/-!
Shallow embedding of the ASCII-art conversion pipeline of this repository
(`src/ascii-worker.js`, plain-JS worker and the WASM-variant worker's JS
helpers, plus the main-thread copies in `src/unnamed/part_000`).

Modelling conventions:
* JavaScript numbers are modelled by `ℚ` (the source only performs +, -, *, /,
  `Math.round`, `Math.floor`, `Math.min/max` on values produced from 8-bit
  pixel data, so every reachable value is rational).  `Float32Array` storage
  is modelled without the float32 rounding step.
* `NaN` is modelled by `none : Option ℚ`; in this pipeline a zero divisor
  only ever occurs together with a zero dividend (`0/0 = NaN` in JS), so
  division is modelled as `jsDiv`, returning `none` on a zero denominator.
* Out-of-range indexing (JS `undefined`) is modelled with `Option`; the
  string coercion `"" + undefined = "undefined"` used by `ascii += chars[i]`
  is modelled explicitly in `cellStr`.
* Strings are modelled as `List Char`.
-/

namespace AsciiWorker

/-- Executable floor on `ℚ` (`Int.fdiv` floors for a positive denominator);
kernel-reducible, unlike the `FloorRing` route of `Int.floor`. -/
def qfloor (q : ℚ) : ℤ := q.num.fdiv q.den

/-- JS `Math.round`: round half toward positive infinity. -/
def jsRound (q : ℚ) : ℤ := qfloor (q + 1/2)

/-- Clamp a rational to [0, 1]; models `Math.max(0, Math.min(1, b))`. -/
def clamp01 (q : ℚ) : ℚ := max 0 (min 1 q)

/-- JS division as used in this pipeline.  In the source, a zero denominator
only ever occurs together with a zero numerator, giving `0/0 = NaN`; `NaN`
is modelled as `none`. -/
def jsDiv (a b : ℚ) : Option ℚ := if b = 0 then none else some (a / b)

/-- Luminance of an 8-bit RGB triple; models `getBrightness` in
`src/ascii-worker.js` (identical in both worker variants and the main
thread). -/
def getBrightness (r g b : ℕ) : ℚ :=
  (0.299 * r + 0.587 * g + 0.114 * b) / 255

/-- Histogram bin of a normalized luminance; models `Math.floor(v * 255)`. -/
def binOf (v : ℚ) : ℤ := qfloor (v * 255)

/-- Number of samples whose bin is `≤ k`; for bins in `[0, 255]` this equals
the code's cumulative histogram `cdf[k]` (`cdf[i] = Σ_(j≤i) histogram[j]`). -/
def cdfCount (bins : List ℤ) (k : ℤ) : ℕ := (bins.filter (fun b => b ≤ k)).length

/-- The 256 entries of the code's `cdf` array, in index order. -/
def cdfValues (bins : List ℤ) : List ℕ :=
  (List.range 256).map (fun k => cdfCount bins (Int.ofNat k))

/-- Models `cdf.find(v => v > 0)`: the first nonzero CDF entry. -/
def cdfMinOf (bins : List ℤ) : Option ℕ :=
  (cdfValues bins).find? (fun v => decide (0 < v))

/-- Histogram equalization pass of `applyContrast`
(`src/ascii-worker.js:41-59`).  Each value is remapped to
`(cdf[bin] - cdfMin) / (total - cdfMin)`; the division is `jsDiv`, so a
uniform-luminance input (where `cdfMin = total`) produces `none` (= NaN).
When the input list is empty, `cdf.find` yields `undefined` and the remap
loop body never runs; the result is the empty list in either branch. -/
def equalize (brightness : List ℚ) : List (Option ℚ) :=
  let bins := brightness.map binOf
  let total := brightness.length
  match cdfMinOf bins with
  | none => brightness.map (fun _ => none)
  | some m =>
      brightness.map (fun v =>
        jsDiv ((cdfCount bins (binOf v) : ℚ) - (m : ℚ)) ((total : ℚ) - (m : ℚ)))

/-- Models `applyContrast` (`src/ascii-worker.js:35-72`): short-circuit when
`contrast === 1 && !useHistogram`; otherwise histogram equalization (when
requested) followed by the linear contrast remap (when `contrast ≠ 1`).
The linear remap propagates NaN (`Option.map`), as JS arithmetic does. -/
def applyContrast (brightness : List ℚ) (contrast : ℚ) (useHistogram : Bool) :
    List (Option ℚ) :=
  if contrast = 1 ∧ useHistogram = false then brightness.map some
  else
    let b1 := if useHistogram then equalize brightness else brightness.map some
    if contrast = 1 then b1
    else b1.map (Option.map (fun b => clamp01 ((b - 0.5) * contrast + 0.5)))

end AsciiWorker

namespace AsciiWorker

/-- Color mode setting.  The source stores this as a string
(`'monochrome'`, `'ansi256'`, `'truecolor'`, `'adaptive8'`, ...); the
`adaptive` constructor carries the numeric suffix that the handler extracts
with `parseInt(colorMode.replace('adaptive', ''))`. -/
inductive ColorMode where
  | monochrome : ColorMode
  | ansi256 : ColorMode
  | truecolor : ColorMode
  | adaptive : ℕ → ColorMode
deriving DecidableEq, Repr

/-- The `settings` object posted to the worker (built by `convertToAscii`
in `src/unnamed/part_000`). -/
structure Settings where
  chars : List Char
  invert : Bool
  contrast : ℚ
  histogram : Bool
  colorMode : ColorMode
  saturation : ℚ
  blend : ℚ
  baseOpacity : ℚ
  brightnessOpacity : Bool
  fgR : ℕ
  fgG : ℕ
  fgB : ℕ
deriving DecidableEq, Repr

/-- Reading `pixels[i]`.  The theorems below assume the `PixelBuffer`
data-model invariant (length `4·W·H`, 8-bit entries), under which every
access is in range, so the out-of-range default is never observable. -/
def pixelAt (pixels : List ℕ) (i : ℕ) : ℕ := pixels.getD i 0

/-- The per-cell luminance array; models the loop
`brightnessValues[i] = getBrightness(pixels[pi], ...)` of
`brightnessMapping` (`src/ascii-worker.js:157-161`). -/
def brightnessValues (pixels : List ℕ) (w h : ℕ) : List ℚ :=
  (List.range (w * h)).map (fun i =>
    getBrightness (pixelAt pixels (4 * i)) (pixelAt pixels (4 * i + 1))
      (pixelAt pixels (4 * i + 2)))

/-- Models `chars[Math.min(chars.length - 1, Math.floor(brightness * chars.length))]`.
A NaN brightness (`none`) gives `chars[NaN] = undefined`; an empty ramp gives
index `min(-1, 0) = -1`, i.e. `chars[-1] = undefined`.  `undefined` is
modelled as `none`. -/
def jsCharAt (chars : List Char) (v : Option ℚ) : Option Char :=
  match v with
  | none => none
  | some q =>
      let idx : ℤ := min ((chars.length : ℤ) - 1) (qfloor (q * (chars.length : ℚ)))
      if idx < 0 then none else chars.get? idx.toNat

/-- Models `ascii += chars[charIndex]`: appending `undefined` to a JS string
appends the text `"undefined"`. -/
def cellStr (c : Option Char) : List Char :=
  match c with
  | some ch => [ch]
  | none => "undefined".toList

/-- The ASCII-string assembly loop of `brightnessMapping`
(`src/ascii-worker.js:165-173`): row-major cells, one `'\n'` after each row. -/
def asciiFrom (chars : List Char) (bv : List (Option ℚ)) (w h : ℕ) : List Char :=
  ((List.range h).map (fun y =>
    ((List.range w).map (fun x =>
      cellStr (jsCharAt chars (bv.getD (y * w + x) none)))).flatten ++ ['\n'])).flatten

/-- Models `brightnessMapping` (`src/ascii-worker.js:151-176`): reverse the
ramp when inverting, compute luminances, run `applyContrast` in place, then
assemble the character grid.  Returns `(ascii, brightnessValues)`. -/
def brightnessMapping (pixels : List ℕ) (w h : ℕ) (s : Settings) :
    List Char × List (Option ℚ) :=
  let chars := if s.invert then s.chars.reverse else s.chars
  let bv := applyContrast (brightnessValues pixels w h) s.contrast s.histogram
  (asciiFrom chars bv w h, bv)

end AsciiWorker

theorem AsciiWorker.qfloor_eq_floor (q : ℚ) : qfloor q = ⌊q⌋ := by
  rw [qfloor, Int.fdiv_eq_ediv _ (by positivity), Rat.floor_def]


namespace AsciiWorker

/-- An RGB triple. -/
abbrev RGB := ℕ × ℕ × ℕ

/-- A weighted color `[r, g, b, count]` as used by the quantizer. -/
abbrev WColor := ℕ × ℕ × ℕ × ℕ

/-- Models the packed map key `(r << 16) | (g << 8) | b`; for 8-bit channels
the shifts do not overlap, so the key is `r·65536 + g·256 + b`. -/
def packKey (r g b : ℕ) : ℕ := r * 65536 + g * 256 + b

/-- Models `(key >> 16) & 0xff`. -/
def unpackR (key : ℕ) : ℕ := key / 65536 % 256

/-- Models `(key >> 8) & 0xff`. -/
def unpackG (key : ℕ) : ℕ := key / 256 % 256

/-- Models `key & 0xff`. -/
def unpackB (key : ℕ) : ℕ := key % 256

/-- Saturation pre-adjustment of one sampled color
(`src/ascii-worker.js:81-86`): only applied when `saturation < 1`; each
channel is rounded toward its own luminance.  Channels stay in `[0, 255]`
for `saturation ∈ [0, 1)`, so the `Int.toNat` is lossless on the data-model
domain. -/
def adjustSat (sat : ℚ) (r g b : ℕ) : ℕ × ℕ × ℕ :=
  if sat < 1 then
    let gray : ℤ := jsRound (0.299 * r + 0.587 * g + 0.114 * b)
    ((jsRound ((gray : ℚ) + sat * ((r : ℚ) - (gray : ℚ)))).toNat,
     (jsRound ((gray : ℚ) + sat * ((g : ℚ) - (gray : ℚ)))).toNat,
     (jsRound ((gray : ℚ) + sat * ((b : ℚ) - (gray : ℚ)))).toNat)
  else (r, g, b)

/-- Sampling stride: `Math.max(1, Math.floor(pixels.length / 4 / 10000))`. -/
def sampleStep (len : ℕ) : ℕ := max 1 (len / 4 / 10000)

/-- The sampled pixel offsets `i = 0, 4·step, 8·step, ...` while `i < len`. -/
def sampleOffsets (len : ℕ) : List ℕ :=
  (List.range ((len + (4 * sampleStep len - 1)) / (4 * sampleStep len))).map
    (fun j => j * (4 * sampleStep len))

/-- The sampled, saturation-adjusted colors, in sampling order. -/
def sampledColors (pixels : List ℕ) (sat : ℚ) : List RGB :=
  (sampleOffsets pixels.length).map (fun i =>
    adjustSat sat (pixelAt pixels i) (pixelAt pixels (i + 1)) (pixelAt pixels (i + 2)))

/-- One `colorMap.set(key, (colorMap.get(key) || 0) + 1)` step on the
insertion-ordered association list modelling the JS `Map`. -/
def mapInsert (m : List (ℕ × ℕ)) (key : ℕ) : List (ℕ × ℕ) :=
  if m.any (fun p => p.1 = key) then
    m.map (fun p => if p.1 = key then (p.1, p.2 + 1) else p)
  else m ++ [(key, 1)]

/-- The `colorMap` after the sampling loop (JS `Map` iteration preserves
insertion order). -/
def colorMapOf (pixels : List ℕ) (sat : ℚ) : List (ℕ × ℕ) :=
  (sampledColors pixels sat).foldl (fun m c => mapInsert m (packKey c.1 c.2.1 c.2.2)) []

/-- The `colorList` array of `[r, g, b, count]` entries
(`src/ascii-worker.js:92-100`). -/
def colorListOf (pixels : List ℕ) (sat : ℚ) : List WColor :=
  (colorMapOf pixels sat).map (fun p => (unpackR p.1, unpackG p.1, unpackB p.1, p.2))

/-- Channel accessor: `c[0]`, `c[1]`, `c[2]` of a weighted color. -/
def chGet (c : WColor) (channel : ℕ) : ℕ :=
  match channel with
  | 0 => c.1
  | 1 => c.2.1
  | _ => c.2.2.1

/-- Models `getRange(colors, channel)` (`src/ascii-worker.js:107-114`):
max minus min of the channel over the node, with JS initial values 255/0.
(For the empty list JS returns `-255`; the function is only ever applied to
nonempty nodes, where the `ℕ` subtraction agrees.) -/
def getRange (colors : List WColor) (channel : ℕ) : ℕ :=
  (colors.foldl (fun m c => max m (chGet c channel)) 0) -
    (colors.foldl (fun m c => min m (chGet c channel)) 255)

/-- Channel selection of the worker's `medianCut`
(`src/ascii-worker.js:133-135`): `channel = 0`, overridden to 1 when
`gRange >= rRange && gRange >= bRange`, else to 2 when
`bRange >= rRange && bRange >= gRange`. -/
def chooseChannelWorker (colors : List WColor) : ℕ :=
  let rR := getRange colors 0
  let gR := getRange colors 1
  let bR := getRange colors 2
  if gR ≥ rR ∧ gR ≥ bR then 1
  else if bR ≥ rR ∧ bR ≥ gR then 2
  else 0

/-- Channel selection of the main-thread `medianCut`
(`src/unnamed/part_000`): `ranges.indexOf(Math.max(...ranges))`, i.e. the
first channel attaining the maximum range. -/
def chooseChannelMain (colors : List WColor) : ℕ :=
  let rR := getRange colors 0
  let gR := getRange colors 1
  let bR := getRange colors 2
  let m := max rR (max gR bR)
  if rR = m then 0 else if gR = m then 1 else 2

/-- Stable insertion of one element into a list sorted by `key`; together
with `sortByKey` this models the (ES2019-stable) JS
`colors.sort((a, b) => a[channel] - b[channel])`. -/
def insertByKey (key : WColor → ℕ) (x : WColor) : List WColor → List WColor
  | [] => [x]
  | y :: ys => if key x < key y then x :: y :: ys else y :: insertByKey key x ys

/-- Stable sort by a numeric key (insertion sort). -/
def sortByKey (key : WColor → ℕ) : List WColor → List WColor
  | [] => []
  | x :: xs => insertByKey key x (sortByKey key xs)

/-- Weighted-average leaf of the worker's `medianCut`
(`src/ascii-worker.js:117-127`): a zero total weight yields mid-gray. -/
def leafWorker (colors : List WColor) : List RGB :=
  let tr : ℕ := colors.foldl (fun a c => a + c.1 * c.2.2.2) 0
  let tg : ℕ := colors.foldl (fun a c => a + c.2.1 * c.2.2.2) 0
  let tb : ℕ := colors.foldl (fun a c => a + c.2.2.1 * c.2.2.2) 0
  let total : ℕ := colors.foldl (fun a c => a + c.2.2.2) 0
  if total = 0 then [(128, 128, 128)]
  else [((jsRound ((tr : ℚ) / (total : ℚ))).toNat,
         (jsRound ((tg : ℚ) / (total : ℚ))).toNat,
         (jsRound ((tb : ℚ) / (total : ℚ))).toNat)]

/-- Weighted-average leaf of the main-thread `medianCut`
(`src/unnamed/part_000:343-353`): a zero total weight yields no entry. -/
def leafMain (colors : List WColor) : List RGB :=
  let tr : ℕ := colors.foldl (fun a c => a + c.1 * c.2.2.2) 0
  let tg : ℕ := colors.foldl (fun a c => a + c.2.1 * c.2.2.2) 0
  let tb : ℕ := colors.foldl (fun a c => a + c.2.2.1 * c.2.2.2) 0
  let total : ℕ := colors.foldl (fun a c => a + c.2.2.2) 0
  if total = 0 then []
  else [((jsRound ((tr : ℚ) / (total : ℚ))).toNat,
         (jsRound ((tg : ℚ) / (total : ℚ))).toNat,
         (jsRound ((tb : ℚ) / (total : ℚ))).toNat)]

/-- The worker's `medianCut` recursion (`src/ascii-worker.js:116-144`):
stop at depth 0 or at singleton/empty nodes with a weighted-average leaf,
otherwise sort by the chosen channel and split at `Math.floor(length / 2)`. -/
def medianCutWorker (colors : List WColor) : ℕ → List RGB
  | 0 => leafWorker colors
  | d + 1 =>
      if colors.length ≤ 1 then leafWorker colors
      else
        let sorted := sortByKey (fun c => chGet c (chooseChannelWorker colors)) colors
        let mid := sorted.length / 2
        medianCutWorker (sorted.take mid) d ++ medianCutWorker (sorted.drop mid) d

/-- The main-thread `medianCut` recursion (`src/unnamed/part_000:341-368`),
identical except for the channel tie-break and the zero-weight leaf. -/
def medianCutMain (colors : List WColor) : ℕ → List RGB
  | 0 => leafMain colors
  | d + 1 =>
      if colors.length ≤ 1 then leafMain colors
      else
        let sorted := sortByKey (fun c => chGet c (chooseChannelMain colors)) colors
        let mid := sorted.length / 2
        medianCutMain (sorted.take mid) d ++ medianCutMain (sorted.drop mid) d

/-- Models `Math.ceil(Math.log2(numColors))` for `numColors ≥ 1`: the least
`d` with `2 ^ d ≥ numColors` (such a `d ≤ numColors` always exists). -/
def ceilLog2 (numColors : ℕ) : ℕ :=
  (((List.range (numColors + 1)).find? (fun d => decide (numColors ≤ 2 ^ d))).getD
    numColors)

/-- The worker `quantizeColors` (`src/ascii-worker.js:74-148`): sample and
bucket colors, return the distinct set when small enough, otherwise median
cut to depth `ceil(log2(numColors))`, truncated to `numColors` entries. -/
def quantizeColorsWorker (pixels : List ℕ) (numColors : ℕ) (sat : ℚ) : List RGB :=
  let colorList := colorListOf pixels sat
  if colorList.length ≤ numColors then
    colorList.map (fun c => (c.1, c.2.1, c.2.2.1))
  else (medianCutWorker colorList (ceilLog2 numColors)).take numColors

/-- The main-thread `quantizeColors` (`src/unnamed/part_000:297-372`); the
sampling and small-palette stages are textually identical to the worker's,
so they share the embedded definitions, and only `medianCut` differs. -/
def quantizeColorsMain (pixels : List ℕ) (numColors : ℕ) (sat : ℚ) : List RGB :=
  let colorList := colorListOf pixels sat
  if colorList.length ≤ numColors then
    colorList.map (fun c => (c.1, c.2.1, c.2.2.1))
  else (medianCutMain colorList (ceilLog2 numColors)).take numColors

end AsciiWorker

namespace AsciiWorker

/-- Models `ascii.split('\n')` (JS keeps a trailing empty piece). -/
def splitNl : List Char → List (List Char)
  | [] => [[]]
  | c :: cs =>
      if c = '\n' then [] :: splitNl cs
      else
        match splitNl cs with
        | r :: rs => (c :: r) :: rs
        | [] => [[c]]

/-- Models `const char = lines[y] ? lines[y][x] : ' '` followed by
`if (!char) continue`: a missing row — or an empty row, since `''` is falsy —
yields `' '`; an in-range row with `x` out of range yields `undefined`
(`none`), which the loop skips. -/
def charOpt (lines : List (List Char)) (y x : ℕ) : Option Char :=
  match lines.get? y with
  | none => some ' '
  | some row => if row = [] then some ' ' else row.get? x

/-- Per-character HTML escaping; models `escapeHtml` applied to a one-char
string (and the optimized worker's `escapeChar` lookup table). -/
def escChar (c : Char) : List Char :=
  if c = '&' then "&amp;".toList
  else if c = '<' then "&lt;".toList
  else if c = '>' then "&gt;".toList
  else if c = '"' then "&quot;".toList
  else if c = '\'' then "&#039;".toList
  else [c]

/-- Models `nearestColor` (`src/ascii-worker.js:21-33`): squared-distance
scan keeping the first strict improvement, starting from `palette[0]`. -/
def nearestColorGo (r g b : ℕ) (best : RGB) (bestDist : ℤ) : List RGB → RGB
  | [] => best
  | c :: cs =>
      let d := ((r : ℤ) - c.1) ^ 2 + ((g : ℤ) - c.2.1) ^ 2 + ((b : ℤ) - c.2.2) ^ 2
      if d < bestDist then nearestColorGo r g b c d cs
      else nearestColorGo r g b best bestDist cs

/-- Nearest palette entry by squared Euclidean distance.  The JS loop starts
with `minDist = Infinity` and `nearest = palette[0]`, so the head always wins
the first comparison; an empty palette is never passed in the pipeline. -/
def nearestColor (r g b : ℕ) (palette : List RGB) : RGB :=
  match palette with
  | [] => (0, 0, 0)
  | c :: cs =>
      let d := ((r : ℤ) - c.1) ^ 2 + ((g : ℤ) - c.2.1) ^ 2 + ((b : ℤ) - c.2.2) ^ 2
      nearestColorGo r g b c d cs

/-- The two digits after the decimal point of `Number.prototype.toFixed(2)`
for `0 ≤ m < 100`. -/
def twoDigits (m : ℕ) : List Char := [Nat.digitChar (m / 10), Nat.digitChar (m % 10)]

/-- Renders `n / 100` with exactly two decimals, `n ≥ 0`. -/
def fix2Render (n : ℕ) : List Char :=
  (toString (n / 100)).toList ++ '.' :: twoDigits (n % 100)

/-- Models `q.toFixed(2)` (ECMA-262 `Number.prototype.toFixed`): for `x ≥ 0`
the closest `n / 100`, ties toward the larger `n`, i.e. `n = ⌊100x + 1/2⌋`;
negative numbers format `-x` and prepend the sign. -/
def toFixed2 (q : ℚ) : List Char :=
  if q < 0 then '-' :: fix2Render (qfloor (-q * 100 + 1/2)).toNat
  else fix2Render (qfloor (q * 100 + 1/2)).toNat

/-- Decimal rendering of a JS number that is an integer (or NaN). -/
def numStr (v : Option ℤ) : List Char :=
  match v with
  | some z => (toString z).toList
  | none => "NaN".toList

/-- Rendering of a JS number used as an opacity (or NaN). -/
def fixedStr (v : Option ℚ) : List Char :=
  match v with
  | some q => toFixed2 q
  | none => "NaN".toList

/-- Models `opacity < 1`; a NaN comparison is false in JS. -/
def jqLtOne (v : Option ℚ) : Bool :=
  match v with
  | some q => decide (q < 1)
  | none => false

/-- The plain worker's `getColorString` (`src/ascii-worker.js:187-192`). -/
def getColorString (r g b : Option ℤ) (opacity : Option ℚ) : List Char :=
  if jqLtOne opacity then
    "rgba(".toList ++ numStr r ++ ',' :: numStr g ++ ',' :: numStr b ++
      ',' :: fixedStr opacity ++ [')']
  else "rgb(".toList ++ numStr r ++ ',' :: numStr g ++ ',' :: numStr b ++ [')']

/-- The optimized worker's `getColorString` (`src/ascii-worker.js` second
document, lines 428-454): the opacity is first quantized with
`Math.round(opacity * 100)` and the alpha-less `rgb(...)` form is used
whenever that integer reaches 100.  The color-string cache is a pure
memoization (the key determines the string), so it is not modelled. -/
def getColorStringOpt (r g b : ℕ) (opacity : ℚ) : List Char :=
  let opacityInt : ℤ := jsRound (opacity * 100)
  if opacityInt < 100 then
    "rgba(".toList ++ (toString r).toList ++ ',' :: (toString g).toList ++
      ',' :: (toString b).toList ++ ',' :: toFixed2 ((opacityInt : ℚ) / 100) ++ [')']
  else
    "rgb(".toList ++ (toString r).toList ++ ',' :: (toString g).toList ++
      ',' :: (toString b).toList ++ [')']

/-- The per-cell style pipeline of the plain worker's `applyColorToAscii`
(`src/ascii-worker.js:202-253`): palette snap, saturation, brightness blend,
clamp, opacity; returns the cell's color string.  A NaN luminance (possible
only in the degenerate-histogram case) propagates through blend and opacity
exactly as JS arithmetic does. -/
def cellColor (pixels : List ℕ) (bv : List (Option ℚ)) (s : Settings)
    (palette : Option (List RGB)) (idx : ℕ) : List Char :=
  let r0 := pixelAt pixels (4 * idx)
  let g0 := pixelAt pixels (4 * idx + 1)
  let b0 := pixelAt pixels (4 * idx + 2)
  let p1 : RGB :=
    match palette with
    | some pal => nearestColor r0 g0 b0 pal
    | none => (r0, g0, b0)
  let p2 : ℤ × ℤ × ℤ :=
    if s.saturation = 1 then ((p1.1 : ℤ), (p1.2.1 : ℤ), (p1.2.2 : ℤ))
    else
      let gray : ℚ := 0.299 * p1.1 + 0.587 * p1.2.1 + 0.114 * p1.2.2
      (jsRound (gray + s.saturation * ((p1.1 : ℚ) - gray)),
       jsRound (gray + s.saturation * ((p1.2.1 : ℚ) - gray)),
       jsRound (gray + s.saturation * ((p1.2.2 : ℚ) - gray)))
  let p3 : Option ℤ × Option ℤ × Option ℤ :=
    if s.blend = 0.5 then (some p2.1, some p2.2.1, some p2.2.2)
    else
      match bv.getD idx none with
      | none => (none, none, none)
      | some cb =>
          let adjustedBlend := (s.blend - 0.5) * 2
          let factor :=
            if 0 ≤ adjustedBlend then 1 - adjustedBlend * (1 - cb)
            else 1 + |adjustedBlend| * (1 - cb)
          (some (jsRound ((p2.1 : ℚ) * factor)), some (jsRound ((p2.2.1 : ℚ) * factor)),
           some (jsRound ((p2.2.2 : ℚ) * factor)))
  let r4 := p3.1.map (fun v => max 0 (min 255 v))
  let g4 := p3.2.1.map (fun v => max 0 (min 255 v))
  let b4 := p3.2.2.map (fun v => max 0 (min 255 v))
  let opacity : Option ℚ :=
    if s.brightnessOpacity then
      match bv.getD idx none with
      | none => none
      | some cb => some (s.baseOpacity * (1 - (if s.invert then 1 - cb else cb)))
    else some s.baseOpacity
  getColorString r4 g4 b4 opacity

end AsciiWorker

namespace AsciiWorker

/-- Run-accumulator state of the span-combining loop: the open run's style
(`currentColor`, `null` at row start), its accumulated characters, and the
flushed spans so far. -/
abbrev RunState := Option (List Char) × List Char × List (List Char)

/-- One non-skipped iteration of the span-combining loop
(`src/ascii-worker.js:256-264`), generic in the span renderer so that the
colored and the monochrome-opacity loops share it. -/
def stepCell (render : List Char → List Char → List Char) (st : RunState)
    (cell : List Char × Char) : RunState :=
  let esc := escChar cell.2
  match st with
  | (currentColor, currentChars, parts) =>
      if some cell.1 = currentColor then (currentColor, currentChars ++ esc, parts)
      else
        match currentColor with
        | some c0 => (some cell.1, esc, parts ++ [render c0 currentChars])
        | none => (some cell.1, esc, parts)

/-- End-of-row flush (`src/ascii-worker.js:267-269`). -/
def flushRow (render : List Char → List Char → List Char) (st : RunState) :
    List (List Char) :=
  match st with
  | (some c0, currentChars, parts) => parts ++ [render c0 currentChars]
  | (none, _, parts) => parts

/-- The span-combining loop over the explicit cell list (style, character)
of one row. -/
def runLoop (render : List Char → List Char → List Char)
    (cells : List (List Char × Char)) : List (List Char) :=
  flushRow render (cells.foldl (stepCell render) (none, [], []))

/-- The span-combining loop as written in the source: iterate `x` over the
row, skipping cells whose character is `undefined` (`continue`). -/
def runLoopSkip (render : List Char → List Char → List Char)
    (cellAt : ℕ → Option (List Char × Char)) (w : ℕ) : List (List Char) :=
  flushRow render ((List.range w).foldl (fun st x =>
    match cellAt x with
    | none => st
    | some cell => stepCell render st cell) (none, [], []))

/-- A colored span: `<span style="color:COLOR">CHARS</span>`. -/
def spanRender (color : List Char) (chs : List Char) : List Char :=
  "<span style=\"color:".toList ++ color ++ "\">".toList ++ chs ++ "</span>".toList

/-- The (style, character) of the cell at column `x` of row `y`, or `none`
when the loop `continue`s. -/
def cellAtPos (lines : List (List Char)) (pixels : List ℕ) (bv : List (Option ℚ))
    (s : Settings) (palette : Option (List RGB)) (w y x : ℕ) :
    Option (List Char × Char) :=
  (charOpt lines y x).map (fun ch => (cellColor pixels bv s palette (y * w + x), ch))

/-- Models the plain worker's `applyColorToAscii`
(`src/ascii-worker.js:179-274`): `null` for monochrome; otherwise scan each
row, combining adjacent same-color characters into spans, with a newline
after every row. -/
def applyColorToAscii (ascii : List Char) (pixels : List ℕ) (w h : ℕ)
    (bv : List (Option ℚ)) (s : Settings) (palette : Option (List RGB)) :
    Option (List Char) :=
  if s.colorMode = ColorMode.monochrome then none
  else
    let lines := splitNl ascii
    some (((List.range h).map (fun y =>
      (runLoopSkip spanRender (cellAtPos lines pixels bv s palette w y) w).flatten
        ++ ['\n'])).flatten)

/-- A monochrome span:
`<span style="color:rgba(FGR,FGG,FGB,OPACITY)">CHARS</span>`. -/
def monoSpanRender (fgR fgG fgB : ℕ) (opacity : List Char) (chs : List Char) :
    List Char :=
  "<span style=\"color:rgba(".toList ++ (toString fgR).toList ++
    ',' :: (toString fgG).toList ++ ',' :: (toString fgB).toList ++
    ',' :: opacity ++ ")\">".toList ++ chs ++ "</span>".toList

/-- The (opacity-string, character) of one cell of the monochrome
brightness-opacity loop (`src/ascii-worker.js:286-293`); the run key is the
`toFixed(2)` opacity string compared with `===`. -/
def monoCellAtPos (lines : List (List Char)) (pixels : List ℕ) (s : Settings)
    (w y x : ℕ) : Option (List Char × Char) :=
  (charOpt lines y x).map (fun ch =>
    let pi := (y * w + x) * 4
    let brightness := getBrightness (pixelAt pixels pi) (pixelAt pixels (pi + 1))
      (pixelAt pixels (pi + 2))
    let brightness := if s.invert then 1 - brightness else brightness
    (toFixed2 (s.baseOpacity * (1 - brightness)), ch))

/-- Models the plain worker's `processMonoBrightnessOpacity`
(`src/ascii-worker.js:277-312`): same run-combining loop keyed on the
formatted opacity. -/
def processMonoBrightnessOpacity (ascii : List Char) (pixels : List ℕ)
    (w h : ℕ) (s : Settings) : List Char :=
  let lines := splitNl ascii
  ((List.range h).map (fun y =>
    (runLoopSkip (monoSpanRender s.fgR s.fgG s.fgB)
      (monoCellAtPos lines pixels s w y) w).flatten ++ ['\n'])).flatten

/-- The worker's cross-call palette cache (`let cachedPalette = null`). -/
structure WorkerState where
  cachedPalette : Option (ℕ × ℚ × List RGB)
deriving DecidableEq, Repr

/-- The payload of a `convert` message. -/
structure ConvertMsg where
  pixels : List ℕ
  width : ℕ
  height : ℕ
  settings : Settings
  ansi256Palette : List RGB
deriving DecidableEq, Repr

/-- The fields of the posted result that the conversion determines
(`duration` is wall-clock time and is not part of the data contract). -/
structure ConvResult where
  ascii : List Char
  html : Option (List Char)
  width : ℕ
  height : ℕ
deriving DecidableEq, Repr

/-- Palette determination of the `convert` handler
(`src/ascii-worker.js:330-345`): `ansi256` uses the posted fixed palette;
`adaptiveN` reuses `cachedPalette` when its `(numColors, saturation)` key
matches — regardless of the pixels it was computed from — and otherwise
recomputes and overwrites the cache; any other non-monochrome mode
(truecolor) uses no palette. -/
def determinePalette (m : ConvertMsg) (st : WorkerState) :
    Option (List RGB) × WorkerState :=
  match m.settings.colorMode with
  | ColorMode.ansi256 => (some m.ansi256Palette, st)
  | ColorMode.adaptive numColors =>
      match st.cachedPalette with
      | some (n, sat, cols) =>
          if n = numColors ∧ sat = m.settings.saturation then (some cols, st)
          else
            let cols := quantizeColorsWorker m.pixels numColors m.settings.saturation
            (some cols, ⟨some (numColors, m.settings.saturation, cols)⟩)
      | none =>
          let cols := quantizeColorsWorker m.pixels numColors m.settings.saturation
          (some cols, ⟨some (numColors, m.settings.saturation, cols)⟩)
  | _ => (none, st)

/-- The `convert` branch of the worker's message handler
(`src/ascii-worker.js:318-362`), returning the posted result and the new
worker state. -/
def handleConvert (m : ConvertMsg) (st : WorkerState) : ConvResult × WorkerState :=
  let bm := brightnessMapping m.pixels m.width m.height m.settings
  if m.settings.colorMode = ColorMode.monochrome then
    if m.settings.brightnessOpacity then
      (⟨bm.1, some (processMonoBrightnessOpacity bm.1 m.pixels m.width m.height
        m.settings), m.width, m.height⟩, st)
    else (⟨bm.1, none, m.width, m.height⟩, st)
  else
    let pst := determinePalette m st
    (⟨bm.1, applyColorToAscii bm.1 m.pixels m.width m.height bm.2 m.settings pst.1,
      m.width, m.height⟩, pst.2)

end AsciiWorker

namespace AsciiWorker

/-- The default density ramp of the application. -/
def defaultRamp : List Char := "@%#*+=-:. ".toList

/-- Models the ramp the caller actually posts to the worker:
`chars: customChars.value || '@%#*+=-:. '` in `convertToAscii`
(`src/unnamed/part_000`); the empty string is falsy in JS, so an empty
custom ramp is silently replaced by the default ramp. -/
def callerChars (customCharsValue : List Char) : List Char :=
  if customCharsValue = [] then defaultRamp else customCharsValue

/-- Total weight of a median-cut node. -/
def totalWeight (colors : List WColor) : ℕ :=
  colors.foldl (fun a c => a + c.2.2.2) 0

/-- Holds when one channel's range is strictly greatest, so that the worker
and main-thread channel selections agree. -/
def uniqueMaxB (colors : List WColor) : Bool :=
  let rR := getRange colors 0
  let gR := getRange colors 1
  let bR := getRange colors 2
  decide ((gR < rR ∧ bR < rR) ∨ (rR < gR ∧ bR < gR) ∨ (rR < bR ∧ gR < bR))

/-- Agreement certificate for the two `medianCut` recursions: every leaf has
nonzero total weight (the two leaf fallbacks differ) and every split node
has a strictly unique widest channel (the two tie-breaks differ). -/
def agreeB (colors : List WColor) : ℕ → Bool
  | 0 => decide (0 < totalWeight colors)
  | d + 1 =>
      if colors.length ≤ 1 then decide (0 < totalWeight colors)
      else
        let sorted := sortByKey (fun c => chGet c (chooseChannelWorker colors)) colors
        let mid := sorted.length / 2
        uniqueMaxB colors && (agreeB (sorted.take mid) d && agreeB (sorted.drop mid) d)

/-- One step of first-occurrence deduplication. -/
def dedupStep {α : Type} [DecidableEq α] (acc : List α) (x : α) : List α :=
  if x ∈ acc then acc else acc ++ [x]

/-- First-occurrence deduplication (the key order of a JS `Map` built by
repeated `set`). -/
def firstDedup {α : Type} [DecidableEq α] (l : List α) : List α :=
  l.foldl dedupStep []

/-- The distinct sampled (saturation-adjusted) colors, in first-occurrence
order: what §4.4 of the specification calls the distinct color set. -/
def distinctSampledColors (pixels : List ℕ) (sat : ℚ) : List RGB :=
  firstDedup (sampledColors pixels sat)

end AsciiWorker

namespace AsciiWorker

unseal Rat.ofScientific Rat.mul Rat.inv Rat.add Rat.sub in
/-- C1: the claim is violated by the code, which has no CDF-min guard.  On a
uniform-luminance array (all samples in one histogram bin) every remapped
value is `(cdf[bin] - cdfMin) / (total - cdfMin) = 0/0 = NaN` (`none` in this
embedding), not the original value: `applyContrast` with `contrast = 1` and
`useHistogram = true` turns the uniform array `[1/2, 1/2]` into NaNs. -/
theorem applyContrast_uniform_is_nan :
    applyContrast [1/2, 1/2] 1 true = [none, none] ∧
      applyContrast [1/2, 1/2] 1 true ≠ [some (1/2), some (1/2)] := by
  constructor
  · decide
  · decide

end AsciiWorker

namespace AsciiWorker

unseal Rat.ofScientific Rat.mul Rat.inv Rat.add Rat.sub in
/-- C7 counterexample: the pipeline does not refuse an empty density ramp
and surfaces no error.  With `settings.chars = ''`, `brightnessMapping`
happily returns a conversion result: `chars[min(-1, 0)]` is `undefined` and
the JS string append coerces it to the text `undefined`, so a 1×1 black
image converts to the garbage string `"undefined\n"`. -/
theorem emptyRamp_yields_garbage_result :
    (brightnessMapping [0, 0, 0, 255] 1 1
      ⟨[], false, 1, false, ColorMode.monochrome, 1, 0.5, 1, false, 0, 0, 0⟩).1 =
      "undefined\n".toList := by
  decide

/-- C7 (amended): an empty density ramp never reaches the pipeline, because
the caller's settings builder replaces the falsy empty `customChars.value`
with the default ramp, which is nonempty; the worker itself has no guard
(see the counterexample). -/
theorem callerChars_never_empty :
    (∀ v : List Char, callerChars v ≠ []) ∧ callerChars [] = defaultRamp := by
  constructor
  · intro v
    by_cases h : v = [] <;> simp [callerChars, h, defaultRamp]
  · simp [callerChars]

/-- C3 counterexample: on a node whose R, G and B ranges are all equal, the
worker's `medianCut` picks channel G (index 1), not R (index 0) as claimed:
the first branch `gRange >= rRange && gRange >= bRange` wins every tie. -/
theorem chooseChannelWorker_all_equal_not_R :
    getRange [(0, 0, 0, 1), (1, 1, 1, 1)] 0 = getRange [(0, 0, 0, 1), (1, 1, 1, 1)] 1 ∧
    getRange [(0, 0, 0, 1), (1, 1, 1, 1)] 1 = getRange [(0, 0, 0, 1), (1, 1, 1, 1)] 2 ∧
    chooseChannelWorker [(0, 0, 0, 1), (1, 1, 1, 1)] ≠ 0 := by
  refine ⟨by decide, by decide, by decide⟩

/-- C3 (amended): the worker's channel selection prefers G over any channel
it ties with, then B, then R — when all three ranges are equal it picks G,
and in a two-way tie for the greatest range it picks G if G is involved,
otherwise B.  The main-thread `medianCut` (`ranges.indexOf(Math.max(...))`)
does satisfy the claimed R-then-G-then-B preference. -/
theorem chooseChannel_tie_break (colors : List WColor) :
    (getRange colors 0 = getRange colors 1 → getRange colors 1 = getRange colors 2 →
      chooseChannelWorker colors = 1) ∧
    (getRange colors 1 = getRange colors 0 → getRange colors 2 < getRange colors 0 →
      chooseChannelWorker colors = 1) ∧
    (getRange colors 1 = getRange colors 2 → getRange colors 0 < getRange colors 1 →
      chooseChannelWorker colors = 1) ∧
    (getRange colors 0 = getRange colors 2 → getRange colors 1 < getRange colors 0 →
      chooseChannelWorker colors = 2) ∧
    (getRange colors 0 = getRange colors 1 → getRange colors 1 = getRange colors 2 →
      chooseChannelMain colors = 0) ∧
    (getRange colors 0 = getRange colors 1 → getRange colors 2 < getRange colors 0 →
      chooseChannelMain colors = 0) ∧
    (getRange colors 0 = getRange colors 2 → getRange colors 1 < getRange colors 0 →
      chooseChannelMain colors = 0) ∧
    (getRange colors 1 = getRange colors 2 → getRange colors 0 < getRange colors 1 →
      chooseChannelMain colors = 1) := by
  refine ⟨?_, ?_, ?_, ?_, ?_, ?_, ?_, ?_⟩ <;>
    · intro h1 h2
      simp only [chooseChannelWorker, chooseChannelMain]
      split_ifs <;> omega

/-- C3 witness: the amended tie-break facts at concrete nodes. -/
theorem chooseChannel_tie_break_witness :
    chooseChannelWorker [(0, 0, 0, 1), (1, 1, 1, 1)] = 1 ∧
      chooseChannelMain [(0, 0, 0, 1), (1, 1, 1, 1)] = 0 ∧
      chooseChannelWorker [(0, 5, 0, 1), (9, 0, 9, 1)] = 2 := by
  have h1 := chooseChannel_tie_break [(0, 0, 0, 1), (1, 1, 1, 1)]
  have h2 := chooseChannel_tie_break [(0, 5, 0, 1), (9, 0, 9, 1)]
  exact ⟨h1.1 (by decide) (by decide), h1.2.2.2.2.1 (by decide) (by decide),
    h2.2.2.2.1 (by decide) (by decide)⟩

end AsciiWorker

namespace AsciiWorker

/-- The two leaf computations agree whenever the node's total weight is
nonzero (they differ only in the zero-weight fallback). -/
theorem leaf_eq_of_weight_pos (colors : List WColor)
    (h : 0 < totalWeight colors) : leafWorker colors = leafMain colors := by
  simp only [leafWorker, leafMain, totalWeight] at *
  rw [if_neg (by omega), if_neg (by omega)]

/-- Under a strictly unique widest channel the two selections coincide. -/
theorem chooseChannel_eq_of_uniqueMax (colors : List WColor)
    (h : uniqueMaxB colors = true) :
    chooseChannelWorker colors = chooseChannelMain colors := by
  simp only [uniqueMaxB, decide_eq_true_eq] at h
  simp only [chooseChannelWorker, chooseChannelMain]
  rcases h with h | h | h <;> split_ifs <;> omega

/-- The two `medianCut` recursions agree on any node certified by `agreeB`. -/
theorem medianCut_eq_of_agree :
    ∀ (d : ℕ) (colors : List WColor), agreeB colors d = true →
      medianCutWorker colors d = medianCutMain colors d := by
  intro d
  induction d with
  | zero =>
      intro colors h
      simp only [agreeB, decide_eq_true_eq] at h
      simpa [medianCutWorker, medianCutMain] using leaf_eq_of_weight_pos colors h
  | succ d ih =>
      intro colors h
      simp only [agreeB] at h
      by_cases hlen : colors.length ≤ 1
      · rw [if_pos hlen] at h
        simp only [decide_eq_true_eq] at h
        simp [medianCutWorker, medianCutMain, hlen, leaf_eq_of_weight_pos colors h]
      · rw [if_neg hlen] at h
        simp only [Bool.and_eq_true] at h
        obtain ⟨hmax, htake, hdrop⟩ := h
        simp only [medianCutWorker, medianCutMain, if_neg hlen]
        rw [← chooseChannel_eq_of_uniqueMax colors hmax]
        rw [ih _ htake, ih _ hdrop]

/-- C8 (amended): the worker and main-thread `quantizeColors` agree whenever
either the distinct sampled colors already fit the requested count (both
return them directly), or every median-cut split has a strictly unique
widest channel and every leaf has nonzero weight (`agreeB`).  They can
differ otherwise: the worker breaks range ties G-then-B-then-R while the
main thread breaks them R-then-G-then-B, and a zero-weight leaf yields
mid-gray in the worker but nothing on the main thread (see the
counterexample). -/
theorem quantizeColors_worker_main_agree (pixels : List ℕ) (numColors : ℕ)
    (sat : ℚ)
    (h : (colorListOf pixels sat).length ≤ numColors ∨
      agreeB (colorListOf pixels sat) (ceilLog2 numColors) = true) :
    quantizeColorsWorker pixels numColors sat =
      quantizeColorsMain pixels numColors sat := by
  simp only [quantizeColorsWorker, quantizeColorsMain]
  rcases h with h | h
  · rw [if_pos h, if_pos h]
  · by_cases hlen : (colorListOf pixels sat).length ≤ numColors
    · rw [if_pos hlen, if_pos hlen]
    · rw [if_neg hlen, if_neg hlen, medianCut_eq_of_agree _ _ h]

unseal Rat.ofScientific Rat.mul Rat.inv Rat.add Rat.sub in
/-- C8 counterexample: on a 3-pixel image whose R and G ranges tie (and
exceed the B range), requesting 2 colors makes the worker split along G and
the main thread along R, producing different palettes — the worker returns
`[(255,0,100), (50,178,50)]`, the main thread `[(0,255,100), (178,50,50)]`. -/
theorem quantizeColors_worker_main_differ :
    quantizeColorsWorker [0, 255, 100, 255, 255, 0, 100, 255, 100, 100, 0, 255] 2 1 ≠
      quantizeColorsMain [0, 255, 100, 255, 255, 0, 100, 255, 100, 100, 0, 255] 2 1 := by
  decide

unseal Rat.ofScientific Rat.mul Rat.inv Rat.add Rat.sub in
/-- C8 witness: on a 3-pixel image with a strictly unique widest channel at
every split, the two quantizers produce the same 2-color palette. -/
theorem quantizeColors_worker_main_agree_witness :
    quantizeColorsWorker [0, 0, 0, 255, 10, 0, 0, 255, 255, 0, 0, 255] 2 1 =
      quantizeColorsMain [0, 0, 0, 255, 10, 0, 0, 255, 255, 0, 0, 255] 2 1 :=
  quantizeColors_worker_main_agree _ 2 1 (Or.inr (by decide))

end AsciiWorker

namespace AsciiWorker

/-- Bounds for `Math.round` on a value in `[0, 255]`. -/
theorem jsRound_bounds (q : ℚ) (h0 : 0 ≤ q) (h255 : q ≤ 255) :
    0 ≤ jsRound q ∧ jsRound q ≤ 255 := by
  rw [jsRound, qfloor_eq_floor]
  constructor
  · exact Int.le_floor.2 (by push_cast; linarith)
  · have h : ⌊q + 1/2⌋ < (256 : ℤ) := Int.floor_lt.2 (by push_cast; linarith)
    omega

/-- Bound for reads from an 8-bit pixel buffer. -/
theorem pixelAt_lt (pixels : List ℕ) (hbyte : ∀ p ∈ pixels, p < 256) (i : ℕ) :
    pixelAt pixels i < 256 := by
  unfold pixelAt List.getD
  rcases h : pixels.get? i with _ | v
  · norm_num
  · rw [Option.getD_some]
    exact hbyte v (List.get?_mem h)

/-- Saturation adjustment keeps channels in `[0, 255]` for `sat ≥ 0`. -/
theorem adjustSat_lt (sat : ℚ) (hs : 0 ≤ sat) (r g b : ℕ)
    (hr : r < 256) (hg : g < 256) (hb : b < 256) :
    (adjustSat sat r g b).1 < 256 ∧ (adjustSat sat r g b).2.1 < 256 ∧
      (adjustSat sat r g b).2.2 < 256 := by
  unfold adjustSat
  split_ifs with h1
  · have hr' : (r : ℚ) ≤ 255 := by exact_mod_cast Nat.lt_succ_iff.1 hr
    have hg' : (g : ℚ) ≤ 255 := by exact_mod_cast Nat.lt_succ_iff.1 hg
    have hb' : (b : ℚ) ≤ 255 := by exact_mod_cast Nat.lt_succ_iff.1 hb
    have hq0 : (0 : ℚ) ≤ 0.299 * r + 0.587 * g + 0.114 * b := by positivity
    have hq255 : (0.299 * r + 0.587 * g + 0.114 * b : ℚ) ≤ 255 := by
      rw [show (255 : ℚ) = 0.299 * 255 + 0.587 * 255 + 0.114 * 255 by norm_num]
      have e1 : (0.299 : ℚ) * r ≤ 0.299 * 255 := by linarith
      have e2 : (0.587 : ℚ) * g ≤ 0.587 * 255 := by linarith
      have e3 : (0.114 : ℚ) * b ≤ 0.114 * 255 := by linarith
      linarith
    obtain ⟨hg0, hg255⟩ := jsRound_bounds _ hq0 hq255
    set gray : ℤ := jsRound (0.299 * r + 0.587 * g + 0.114 * b) with hgray
    have hgr0 : (0 : ℚ) ≤ (gray : ℚ) := by exact_mod_cast hg0
    have hgr255 : (gray : ℚ) ≤ 255 := by exact_mod_cast hg255
    have key : ∀ c : ℕ, (c : ℚ) ≤ 255 →
        (jsRound ((gray : ℚ) + sat * ((c : ℚ) - (gray : ℚ)))).toNat < 256 := by
      intro c hc
      have hc0 : (0 : ℚ) ≤ (c : ℚ) := by positivity
      have hv0 : (0 : ℚ) ≤ (gray : ℚ) + sat * ((c : ℚ) - (gray : ℚ)) := by nlinarith
      have hv255 : (gray : ℚ) + sat * ((c : ℚ) - (gray : ℚ)) ≤ 255 := by nlinarith
      have := jsRound_bounds _ hv0 hv255
      omega
    exact ⟨key r hr', key g hg', key b hb'⟩
  · exact ⟨hr, hg, hb⟩

/-- All sampled colors have 8-bit channels. -/
theorem sampledColors_lt (pixels : List ℕ) (sat : ℚ) (hs : 0 ≤ sat)
    (hbyte : ∀ p ∈ pixels, p < 256) :
    ∀ c ∈ sampledColors pixels sat, c.1 < 256 ∧ c.2.1 < 256 ∧ c.2.2 < 256 := by
  intro c hc
  simp only [sampledColors, List.mem_map] at hc
  obtain ⟨i, _, rfl⟩ := hc
  exact adjustSat_lt sat hs _ _ _ (pixelAt_lt pixels hbyte i)
    (pixelAt_lt pixels hbyte (i + 1)) (pixelAt_lt pixels hbyte (i + 2))

/-- Keys of one `Map.set` step. -/
theorem mapInsert_keys (m : List (ℕ × ℕ)) (k : ℕ) :
    (mapInsert m k).map Prod.fst =
      if k ∈ m.map Prod.fst then m.map Prod.fst else m.map Prod.fst ++ [k] := by
  unfold mapInsert
  by_cases hk : k ∈ m.map Prod.fst
  · have ha : m.any (fun p => p.1 = k) = true := by
      simp only [List.mem_map] at hk
      obtain ⟨p, hp, he⟩ := hk
      simp only [List.any_eq_true]
      exact ⟨p, hp, by simp [he]⟩
    rw [if_pos ha, if_pos hk, List.map_map]
    apply List.map_congr_left
    intro p _
    by_cases hpk : p.1 = k <;> simp [hpk]
  · have ha : m.any (fun p => p.1 = k) = false := by
      rw [List.any_eq_false]
      intro p hp
      simp only [decide_eq_true_eq]
      intro he
      exact hk (List.mem_map.2 ⟨p, hp, he⟩)
    rw [if_neg (by simp [ha]), if_neg hk]
    simp

/-- The key list of a `Map` built by repeated `set` is the first-occurrence
deduplication of the inserted keys. -/
theorem foldl_mapInsert_keys :
    ∀ (ks : List ℕ) (m : List (ℕ × ℕ)),
      (ks.foldl mapInsert m).map Prod.fst = ks.foldl dedupStep (m.map Prod.fst) := by
  intro ks
  induction ks with
  | nil => intro m; rfl
  | cons k ks ih =>
      intro m
      simp only [List.foldl_cons]
      rw [ih, mapInsert_keys, dedupStep]

/-- Packing is inverted by unpacking on 8-bit channels. -/
theorem unpack_packKey (r g b : ℕ) (hr : r < 256) (hg : g < 256) (hb : b < 256) :
    unpackR (packKey r g b) = r ∧ unpackG (packKey r g b) = g ∧
      unpackB (packKey r g b) = b := by
  unfold unpackR unpackG unpackB packKey
  omega

end AsciiWorker

namespace AsciiWorker

/-- The packed key of an RGB triple. -/
def pk (c : RGB) : ℕ := packKey c.1 c.2.1 c.2.2

/-- Unpacking a key back to an RGB triple. -/
def unpack3 (key : ℕ) : RGB := (unpackR key, unpackG key, unpackB key)

/-- In-range predicate for the pack/unpack round trip. -/
def InByte (c : RGB) : Prop := c.1 < 256 ∧ c.2.1 < 256 ∧ c.2.2 < 256

theorem unpack3_pk (c : RGB) (hc : InByte c) : unpack3 (pk c) = c := by
  obtain ⟨h1, h2, h3⟩ := unpack_packKey c.1 c.2.1 c.2.2 hc.1 hc.2.1 hc.2.2
  simp [unpack3, pk, h1, h2, h3]

theorem pk_mem_iff (c : RGB) (acc : List RGB) (hc : InByte c)
    (hacc : ∀ y ∈ acc, InByte y) : pk c ∈ acc.map pk ↔ c ∈ acc := by
  constructor
  · intro h
    obtain ⟨y, hy, he⟩ := List.mem_map.1 h
    have : y = c := by
      have h1 := unpack3_pk y (hacc y hy)
      have h2 := unpack3_pk c hc
      rw [← h1, he, h2]
    exact this ▸ hy
  · intro h
    exact List.mem_map_of_mem pk h

/-- The dedup fold over packed keys mirrors the dedup fold over triples. -/
theorem foldl_dedup_pack :
    ∀ (l acc : List RGB), (∀ x ∈ l, InByte x) → (∀ y ∈ acc, InByte y) →
      l.foldl (fun a x => dedupStep a (pk x)) (acc.map pk) =
        (l.foldl dedupStep acc).map pk := by
  intro l
  induction l with
  | nil => intro acc _ _; rfl
  | cons c cs ih =>
      intro acc hl hacc
      simp only [List.foldl_cons, dedupStep]
      have hc : InByte c := hl c (List.mem_cons_self c cs)
      by_cases hmem : c ∈ acc
      · rw [if_pos ((pk_mem_iff c acc hc hacc).2 hmem), if_pos hmem]
        exact ih acc (fun x hx => hl x (List.mem_cons_of_mem c hx)) hacc
      · rw [if_neg (fun h => hmem ((pk_mem_iff c acc hc hacc).1 h)), if_neg hmem,
          show [pk c] = List.map pk [c] from rfl, ← List.map_append]
        exact ih (acc ++ [c]) (fun x hx => hl x (List.mem_cons_of_mem c hx))
          (fun y hy => by
            rcases List.mem_append.1 hy with h | h
            · exact hacc y h
            · simp only [List.mem_singleton] at h
              exact h ▸ hc)

/-- Elements of the dedup fold come from the accumulator or the input. -/
theorem foldl_dedup_mem :
    ∀ (l acc : List RGB) (y : RGB),
      y ∈ l.foldl dedupStep acc → y ∈ acc ∨ y ∈ l := by
  intro l
  induction l with
  | nil => intro acc y h; exact Or.inl h
  | cons c cs ih =>
      intro acc y h
      simp only [List.foldl_cons, dedupStep] at h
      by_cases hmem : c ∈ acc
      · rw [if_pos hmem] at h
        rcases ih acc y h with h | h
        · exact Or.inl h
        · exact Or.inr (List.mem_cons_of_mem c h)
      · rw [if_neg hmem] at h
        rcases ih (acc ++ [c]) y h with h | h
        · rcases List.mem_append.1 h with h | h
          · exact Or.inl h
          · simp only [List.mem_singleton] at h
            exact Or.inr (h ▸ List.mem_cons_self c cs)
        · exact Or.inr (List.mem_cons_of_mem c h)

/-- The sampled `colorMap`, projected to its RGB triples, is exactly the
first-occurrence-deduplicated sampled color list (claim C4's second part,
and the bridge used by the small-palette branch of `quantizeColors`). -/
theorem colorList_rgb_eq_distinct (pixels : List ℕ) (sat : ℚ) (hs : 0 ≤ sat)
    (hbyte : ∀ p ∈ pixels, p < 256) :
    (colorListOf pixels sat).map (fun c => (c.1, c.2.1, c.2.2.1)) =
      distinctSampledColors pixels sat := by
  have hin : ∀ x ∈ sampledColors pixels sat, InByte x := by
    intro x hx
    exact sampledColors_lt pixels sat hs hbyte x hx
  have step1 : (colorMapOf pixels sat).map Prod.fst =
      firstDedup ((sampledColors pixels sat).map pk) := by
    unfold colorMapOf firstDedup
    have h := foldl_mapInsert_keys ((sampledColors pixels sat).map pk) []
    rw [List.foldl_map] at h
    exact h
  have step2 : firstDedup ((sampledColors pixels sat).map pk) =
      (firstDedup (sampledColors pixels sat)).map pk := by
    unfold firstDedup
    rw [List.foldl_map]
    exact foldl_dedup_pack (sampledColors pixels sat) [] hin (by simp)
  have hfin : ∀ y ∈ firstDedup (sampledColors pixels sat), InByte y := by
    intro y hy
    unfold firstDedup at hy
    rcases foldl_dedup_mem (sampledColors pixels sat) [] y hy with h | h
    · simp at h
    · exact hin y h
  have step3 : (colorListOf pixels sat).map (fun c => (c.1, c.2.1, c.2.2.1)) =
      ((colorMapOf pixels sat).map Prod.fst).map unpack3 := by
    unfold colorListOf
    rw [List.map_map, List.map_map]
    rfl
  rw [step3, step1, step2, List.map_map, distinctSampledColors]
  conv_rhs => rw [show firstDedup (sampledColors pixels sat) =
    List.map id (firstDedup (sampledColors pixels sat)) from (List.map_id _).symm]
  exact List.map_congr_left fun y hy => unpack3_pk y (hfin y hy)

end AsciiWorker

namespace AsciiWorker

/-- C4: for every 8-bit pixel buffer, requested color count `k ≥ 1` and
saturation `≥ 0`, `quantizeColors` returns at most `k` palette entries, and
whenever the distinct sampled (saturation-adjusted) colors number at most
`k` it returns exactly that distinct color set, in first-occurrence order,
with the weights discarded. -/
theorem quantizeColors_size_and_exact_small (pixels : List ℕ) (k : ℕ) (sat : ℚ)
    (hk : 1 ≤ k) (hs : 0 ≤ sat) (h4 : 4 ∣ pixels.length)
    (hbyte : ∀ p ∈ pixels, p < 256) :
    (quantizeColorsWorker pixels k sat).length ≤ k ∧
      ((distinctSampledColors pixels sat).length ≤ k →
        quantizeColorsWorker pixels k sat = distinctSampledColors pixels sat) := by
  have hlen : (colorListOf pixels sat).length =
      (distinctSampledColors pixels sat).length := by
    rw [← colorList_rgb_eq_distinct pixels sat hs hbyte, List.length_map]
  constructor
  · unfold quantizeColorsWorker
    by_cases hsmall : (colorListOf pixels sat).length ≤ k
    · rw [if_pos hsmall, List.length_map]
      exact hsmall
    · rw [if_neg hsmall]
      exact (List.length_take _ _).le.trans (min_le_left _ _)
  · intro hd
    unfold quantizeColorsWorker
    rw [if_pos (hlen ▸ hd)]
    exact colorList_rgb_eq_distinct pixels sat hs hbyte

unseal Rat.ofScientific Rat.mul Rat.inv Rat.add Rat.sub in
/-- C4 witness: an 8-pixel buffer with two distinct colors and `k = 4`. -/
theorem quantizeColors_size_and_exact_small_witness :
    (quantizeColorsWorker [1, 2, 3, 255, 9, 8, 7, 255] 4 1).length ≤ 4 ∧
      quantizeColorsWorker [1, 2, 3, 255, 9, 8, 7, 255] 4 1 =
        distinctSampledColors [1, 2, 3, 255, 9, 8, 7, 255] 1 := by
  have h := quantizeColors_size_and_exact_small [1, 2, 3, 255, 9, 8, 7, 255] 4 1
    (by decide) (by decide) (by decide) (by decide)
  exact ⟨h.1, h.2 (by decide)⟩

end AsciiWorker

namespace AsciiWorker

theorem getD_replicate {α : Type} (a d : α) :
    ∀ (m j : ℕ), j < m → (List.replicate m a).getD j d = a := by
  intro m
  induction m with
  | zero => intro j hj; omega
  | succ m ih =>
      intro j hj
      cases j with
      | zero => rfl
      | succ j => exact ih j (by omega)

theorem flatten_replicate_singleton {α : Type} (c : α) :
    ∀ (w : ℕ), (List.replicate w [c]).flatten = List.replicate w c := by
  intro w
  induction w with
  | zero => rfl
  | succ w ih => simp [List.replicate_succ, ih]

theorem cell_index_lt (y x w h : ℕ) (hy : y < h) (hx : x < w) : y * w + x < w * h :=
  calc y * w + x < y * w + w := by omega
  _ = (y + 1) * w := (Nat.succ_mul y w).symm
  _ ≤ h * w := Nat.mul_le_mul_right w hy
  _ = w * h := Nat.mul_comm h w

/-- The grid assembly at a constant cell character is the constant grid. -/
theorem asciiFrom_const (chars : List Char) (q : ℚ) (c : Char) (w h : ℕ)
    (hc : jsCharAt chars (some q) = some c) :
    asciiFrom chars (List.replicate (w * h) (some q)) w h =
      (List.replicate h (List.replicate w c ++ ['\n'])).flatten := by
  unfold asciiFrom
  have hrow : ∀ y, y < h →
      ((List.range w).map (fun x =>
        cellStr (jsCharAt chars ((List.replicate (w * h) (some q)).getD (y * w + x)
          none)))).flatten ++ ['\n'] = List.replicate w c ++ ['\n'] := by
    intro y hy
    have : (List.range w).map (fun x =>
        cellStr (jsCharAt chars ((List.replicate (w * h) (some q)).getD (y * w + x)
          none))) = List.replicate w [c] := by
      refine List.eq_replicate_iff.2 ⟨by simp, ?_⟩
      intro b hb
      obtain ⟨x, hx, rfl⟩ := List.mem_map.1 hb
      rw [getD_replicate _ _ _ _ (cell_index_lt y x w h hy (List.mem_range.1 hx)), hc]
      rfl
    rw [this, flatten_replicate_singleton]
  have : (List.range h).map (fun y =>
      ((List.range w).map (fun x =>
        cellStr (jsCharAt chars ((List.replicate (w * h) (some q)).getD (y * w + x)
          none)))).flatten ++ ['\n']) =
      List.replicate h (List.replicate w c ++ ['\n']) := by
    refine List.eq_replicate_iff.2 ⟨by simp, ?_⟩
    intro b hb
    obtain ⟨y, hy, rfl⟩ := List.mem_map.1 hb
    exact hrow y (List.mem_range.1 hy)
  rw [this]

/-- The luminance array of a constant pixel buffer is constant. -/
theorem brightnessValues_const (p w h : ℕ) :
    brightnessValues (List.replicate (4 * (w * h)) p) w h =
      List.replicate (w * h) (getBrightness p p p) := by
  unfold brightnessValues
  refine List.eq_replicate_iff.2 ⟨by simp, ?_⟩
  intro b hb
  obtain ⟨i, hi, rfl⟩ := List.mem_map.1 hb
  have hi' : i < w * h := List.mem_range.1 hi
  rw [show pixelAt (List.replicate (4 * (w * h)) p) (4 * i) = p from
      getD_replicate _ _ _ _ (by omega),
    show pixelAt (List.replicate (4 * (w * h)) p) (4 * i + 1) = p from
      getD_replicate _ _ _ _ (by omega),
    show pixelAt (List.replicate (4 * (w * h)) p) (4 * i + 2) = p from
      getD_replicate _ _ _ _ (by omega)]

end AsciiWorker

namespace AsciiWorker

theorem get?_eq_some_getD {α : Type} (l : List α) (i : ℕ) (d : α)
    (h : i < l.length) : l.get? i = some (l.getD i d) := by
  rw [List.getD_eq_get?]
  rcases hh : l.get? i with _ | v
  · rw [List.get?_eq_none] at hh
    omega
  · rfl

/-- C5: with a nonempty ramp, `brightnessMapping` maps a numeric luminance
`v ≥ 0` to the ramp character at index `min(n-1, floor(v·n))`; in particular
`v = 1` clamps to the last index.  Consequently, with `contrast = 1`, no
histogram equalization and no inversion, an all-black `w×h` RGBA buffer
produces the constant grid of the ramp's first character and an all-white
buffer the constant grid of its last character. -/
theorem brightnessMapping_glyph_index (s : Settings) (w h : ℕ)
    (hinv : s.invert = false) (hcon : s.contrast = 1) (hhist : s.histogram = false)
    (hn : 0 < s.chars.length) :
    (∀ v : ℚ, 0 ≤ v → jsCharAt s.chars (some v) =
      s.chars.get? (min (s.chars.length - 1)
        (qfloor (v * (s.chars.length : ℚ))).toNat)) ∧
    jsCharAt s.chars (some 1) = s.chars.get? (s.chars.length - 1) ∧
    (brightnessMapping (List.replicate (4 * (w * h)) 0) w h s).1 =
      (List.replicate h (List.replicate w (s.chars.getD 0 ' ') ++ ['\n'])).flatten ∧
    (brightnessMapping (List.replicate (4 * (w * h)) 255) w h s).1 =
      (List.replicate h (List.replicate w (s.chars.getD (s.chars.length - 1) ' ')
        ++ ['\n'])).flatten := by
  have hA : ∀ v : ℚ, 0 ≤ v → jsCharAt s.chars (some v) =
      s.chars.get? (min (s.chars.length - 1)
        (qfloor (v * (s.chars.length : ℚ))).toNat) := by
    intro v hv
    simp only [jsCharAt]
    have hq : 0 ≤ qfloor (v * (s.chars.length : ℚ)) := by
      rw [qfloor_eq_floor]
      exact Int.le_floor.2 (by positivity)
    rw [if_neg (by omega)]
    congr 1
    omega
  have hfl1 : qfloor ((1 : ℚ) * (s.chars.length : ℚ)) = s.chars.length := by
    rw [one_mul, qfloor_eq_floor, Int.floor_natCast]
  have hB : jsCharAt s.chars (some 1) = s.chars.get? (s.chars.length - 1) := by
    rw [hA 1 (by norm_num), hfl1]
    congr 1
    omega
  have hfl0 : qfloor ((0 : ℚ) * (s.chars.length : ℚ)) = 0 := by
    rw [zero_mul]
    rfl
  have happly : ∀ q : ℚ, applyContrast (List.replicate (w * h) q) s.contrast
      s.histogram = List.replicate (w * h) (some q) := by
    intro q
    rw [hcon, hhist, applyContrast, if_pos ⟨rfl, rfl⟩, List.map_replicate]
  have hb0 : getBrightness 0 0 0 = 0 := by
    simp [getBrightness]
  have hb255 : getBrightness 255 255 255 = 1 := by
    rw [getBrightness]
    norm_num
  have hc0 : jsCharAt s.chars (some 0) = some (s.chars.getD 0 ' ') := by
    rw [hA 0 le_rfl, hfl0]
    simpa using get?_eq_some_getD s.chars 0 ' ' hn
  have hc1 : jsCharAt s.chars (some 1) = some (s.chars.getD (s.chars.length - 1) ' ') := by
    rw [hB]
    exact get?_eq_some_getD s.chars (s.chars.length - 1) ' ' (by omega)
  have hch : (if s.invert then s.chars.reverse else s.chars) = s.chars := by
    simp [hinv]
  refine ⟨hA, hB, ?_, ?_⟩
  · show asciiFrom (if s.invert then s.chars.reverse else s.chars)
      (applyContrast (brightnessValues (List.replicate (4 * (w * h)) 0) w h)
        s.contrast s.histogram) w h = _
    rw [hch, brightnessValues_const, hb0, happly, asciiFrom_const s.chars 0 _ w h hc0]
  · show asciiFrom (if s.invert then s.chars.reverse else s.chars)
      (applyContrast (brightnessValues (List.replicate (4 * (w * h)) 255) w h)
        s.contrast s.histogram) w h = _
    rw [hch, brightnessValues_const, hb255, happly, asciiFrom_const s.chars 1 _ w h hc1]

end AsciiWorker

namespace AsciiWorker

unseal Rat.ofScientific Rat.mul Rat.inv Rat.add Rat.sub in
/-- C5 witness: the ramp `"ab"` on 2×2 all-black and all-white buffers, and
the index formula at luminance `3/4`. -/
theorem brightnessMapping_glyph_index_witness :
    jsCharAt ['a', 'b'] (some (3/4)) = some 'b' ∧
      jsCharAt ['a', 'b'] (some 1) = some 'b' ∧
      (brightnessMapping (List.replicate (4 * (2 * 2)) 0) 2 2
        ⟨['a', 'b'], false, 1, false, ColorMode.monochrome, 1, 1/2, 1, false,
          0, 0, 0⟩).1 = "aa\naa\n".toList ∧
      (brightnessMapping (List.replicate (4 * (2 * 2)) 255) 2 2
        ⟨['a', 'b'], false, 1, false, ColorMode.monochrome, 1, 1/2, 1, false,
          0, 0, 0⟩).1 = "bb\nbb\n".toList := by
  have H := brightnessMapping_glyph_index
    ⟨['a', 'b'], false, 1, false, ColorMode.monochrome, 1, 1/2, 1, false, 0, 0, 0⟩
    2 2 rfl rfl rfl (by decide)
  refine ⟨?_, ?_, ?_, ?_⟩
  · rw [H.1 (3/4) (by norm_num)]
    decide
  · rw [H.2.1]
    decide
  · rw [H.2.2.1]
    decide
  · rw [H.2.2.2]
    decide

end AsciiWorker

namespace AsciiWorker

theorem find?_spec {α : Type} (p : α → Bool) :
    ∀ (l : List α) (b : α), l.find? p = some b →
      ∃ i, l.get? i = some b ∧ p b = true ∧
        ∀ j, j < i → ∀ a, l.get? j = some a → p a = false := by
  intro l
  induction l with
  | nil => intro b h; simp [List.find?] at h
  | cons x xs ih =>
      intro b h
      cases hx : p x
      · rw [List.find?_cons_of_neg _ (by simp [hx])] at h
        obtain ⟨i, hi, hpb, hmin⟩ := ih b h
        refine ⟨i + 1, by simpa using hi, hpb, ?_⟩
        intro j hj a ha
        cases j with
        | zero =>
            simp only [List.get?_cons_zero, Option.some_inj] at ha
            exact ha ▸ hx
        | succ j =>
            exact hmin j (by omega) a (by simpa using ha)
      · rw [List.find?_cons_of_pos _ hx] at h
        injection h with h
        exact ⟨0, by simp [h], h ▸ hx, by omega⟩

theorem cdfCount_mono (bins : List ℤ) (j k : ℤ) (h : j ≤ k) :
    cdfCount bins j ≤ cdfCount bins k := by
  unfold cdfCount
  induction bins with
  | nil => simp
  | cons b bs ih =>
      by_cases hbj : b ≤ j
      · have hbk : b ≤ k := le_trans hbj h
        simp [List.filter_cons, hbj, hbk]
        omega
      · by_cases hbk : b ≤ k
        · simp [List.filter_cons, hbj, hbk]
          omega
        · simp [List.filter_cons, hbj, hbk]
          exact ih

theorem cdfCount_pos_of_mem (bins : List ℤ) (b : ℤ) (hb : b ∈ bins) :
    0 < cdfCount bins b := by
  unfold cdfCount
  exact List.length_pos_of_mem (List.mem_filter.2 ⟨hb, by simp⟩)

theorem cdfCount_le_length (bins : List ℤ) (k : ℤ) :
    cdfCount bins k ≤ bins.length := by
  unfold cdfCount
  exact List.length_filter_le _ _

theorem binOf_bounds (v : ℚ) (h0 : 0 ≤ v) (h1 : v ≤ 1) :
    0 ≤ binOf v ∧ binOf v ≤ 255 := by
  unfold binOf
  rw [qfloor_eq_floor]
  constructor
  · exact Int.le_floor.2 (by positivity)
  · have : ⌊v * 255⌋ < (256 : ℤ) := Int.floor_lt.2 (by push_cast; linarith)
    omega

/-- Every numeric (non-NaN) output of the histogram equalization of a
luminance list lies in `[0, 1]`. -/
theorem equalize_some_bounds (brightness : List ℚ)
    (hb : ∀ v ∈ brightness, 0 ≤ v ∧ v ≤ 1) :
    ∀ o ∈ equalize brightness, ∀ q, o = some q → 0 ≤ q ∧ q ≤ 1 := by
  intro o ho q hq
  simp only [equalize] at ho
  rcases hm : cdfMinOf (brightness.map binOf) with _ | m
  · rw [hm] at ho
    simp only [List.mem_map] at ho
    obtain ⟨v, _, hv⟩ := ho
    rw [hq] at hv
    exact absurd hv (by simp)
  · rw [hm] at ho
    simp only [List.mem_map] at ho
    obtain ⟨v, hv, hjs⟩ := ho
    rw [hq] at hjs
    unfold jsDiv at hjs
    split_ifs at hjs with hden
    obtain ⟨hquot⟩ := hjs
    obtain ⟨hv0, hv1⟩ := hb v hv
    obtain ⟨hbin0, hbin255⟩ := binOf_bounds v hv0 hv1
    obtain ⟨i, hgi, hpos, hmin⟩ := find?_spec _ _ _ hm
    have hlen256 : (cdfValues (brightness.map binOf)).length = 256 := by
      rw [cdfValues, List.length_map, List.length_range]
    have hi256 : i < 256 := by
      by_contra hge
      rw [List.get?_eq_none.2 (by omega)] at hgi
      exact absurd hgi (by simp)
    have hmval : m = cdfCount (brightness.map binOf) (i : ℤ) := by
      have : (cdfValues (brightness.map binOf)).get? i =
          some (cdfCount (brightness.map binOf) (i : ℤ)) := by
        rw [cdfValues, List.get?_map, List.get?_range hi256]
        rfl
      rw [this] at hgi
      exact (Option.some_inj.1 hgi).symm
    have hmpos : 0 < m := by simpa using hpos
    have hselfpos : 0 < cdfCount (brightness.map binOf) (binOf v) :=
      cdfCount_pos_of_mem _ _ (List.mem_map_of_mem binOf hv)
    have hile : (i : ℤ) ≤ binOf v := by
      by_contra hlt
      push_neg at hlt
      have hjlt : (binOf v).toNat < i := by omega
      have hj256 : (binOf v).toNat < 256 := by omega
      have hzero := hmin (binOf v).toNat hjlt
        (cdfCount (brightness.map binOf) ((binOf v).toNat : ℤ))
        (by
          rw [cdfValues, List.get?_map, List.get?_range hj256]
          rfl)
      rw [show (((binOf v).toNat : ℤ)) = binOf v by omega] at hzero
      simp only [decide_eq_false_iff_not, not_lt, Nat.le_zero] at hzero
      omega
    have hmle : m ≤ cdfCount (brightness.map binOf) (binOf v) :=
      hmval ▸ cdfCount_mono _ _ _ hile
    have htot : cdfCount (brightness.map binOf) (binOf v) ≤ brightness.length := by
      have := cdfCount_le_length (brightness.map binOf) (binOf v)
      simpa using this
    have hdenpos : (0 : ℚ) < (brightness.length : ℚ) - (m : ℚ) := by
      rcases lt_or_eq_of_le (show (m : ℚ) ≤ (brightness.length : ℚ) by
        exact_mod_cast le_trans hmle htot) with hlt | heq
      · linarith
      · exact absurd (by rw [heq]; ring) hden
    constructor
    · apply div_nonneg _ (le_of_lt hdenpos)
      have : (m : ℚ) ≤ (cdfCount (brightness.map binOf) (binOf v) : ℚ) := by
        exact_mod_cast hmle
      linarith
    · rw [div_le_one hdenpos]
      have : (cdfCount (brightness.map binOf) (binOf v) : ℚ) ≤
          (brightness.length : ℚ) := by exact_mod_cast htot
      linarith

end AsciiWorker

namespace AsciiWorker

theorem getBrightness_bounds (r g b : ℕ) (hr : r < 256) (hg : g < 256)
    (hb : b < 256) : 0 ≤ getBrightness r g b ∧ getBrightness r g b ≤ 1 := by
  unfold getBrightness
  constructor
  · positivity
  · rw [div_le_one (by norm_num)]
    have hr' : (r : ℚ) ≤ 255 := by exact_mod_cast Nat.lt_succ_iff.1 hr
    have hg' : (g : ℚ) ≤ 255 := by exact_mod_cast Nat.lt_succ_iff.1 hg
    have hb' : (b : ℚ) ≤ 255 := by exact_mod_cast Nat.lt_succ_iff.1 hb
    have e1 : (0.299 : ℚ) * r ≤ 0.299 * 255 := by linarith
    have e2 : (0.587 : ℚ) * g ≤ 0.587 * 255 := by linarith
    have e3 : (0.114 : ℚ) * b ≤ 0.114 * 255 := by linarith
    linarith

theorem brightnessValues_bounds (pixels : List ℕ) (w h : ℕ)
    (hbyte : ∀ p ∈ pixels, p < 256) :
    ∀ v ∈ brightnessValues pixels w h, 0 ≤ v ∧ v ≤ 1 := by
  intro v hv
  simp only [brightnessValues, List.mem_map] at hv
  obtain ⟨i, _, rfl⟩ := hv
  exact getBrightness_bounds _ _ _ (pixelAt_lt pixels hbyte _)
    (pixelAt_lt pixels hbyte _) (pixelAt_lt pixels hbyte _)

theorem equalize_length (brightness : List ℚ) :
    (equalize brightness).length = brightness.length := by
  unfold equalize
  rcases h : cdfMinOf (brightness.map binOf) with _ | m <;> simp [h]

/-- Zeta-expanded form of `applyContrast`, convenient for case analysis. -/
theorem applyContrast_eq (brightness : List ℚ) (c : ℚ) (hist : Bool) :
    applyContrast brightness c hist =
      if c = 1 ∧ hist = false then brightness.map some
      else if c = 1 then (if hist then equalize brightness else brightness.map some)
      else (if hist then equalize brightness else brightness.map some).map
        (Option.map (fun b => clamp01 ((b - 0.5) * c + 0.5))) := rfl

theorem applyContrast_length (brightness : List ℚ) (c : ℚ) (hist : Bool) :
    (applyContrast brightness c hist).length = brightness.length := by
  rw [applyContrast_eq]
  split_ifs <;> cases hist <;> simp [equalize_length]

/-- Every numeric output of the full contrast stage is nonnegative. -/
theorem applyContrast_some_nonneg (brightness : List ℚ) (c : ℚ) (hist : Bool)
    (hb : ∀ v ∈ brightness, 0 ≤ v ∧ v ≤ 1) :
    ∀ o ∈ applyContrast brightness c hist, ∀ q, o = some q → 0 ≤ q := by
  intro o ho q hq
  rw [applyContrast_eq] at ho
  have hmapsome : o ∈ brightness.map some → 0 ≤ q := by
    intro hmem
    obtain ⟨v, hv, he⟩ := List.mem_map.1 hmem
    rw [← he] at hq
    have hvq : v = q := by injection hq
    rw [← hvq]
    exact (hb v hv).1
  have heq : o ∈ equalize brightness → 0 ≤ q :=
    fun hmem => ((equalize_some_bounds brightness hb) o hmem q hq).1
  split_ifs at ho with h1 h2 h3 h3
  · exact hmapsome ho
  · exact heq ho
  · exact hmapsome ho
  · obtain ⟨o', _, he⟩ := List.mem_map.1 ho
    rcases o' with _ | v
    · rw [← he] at hq
      exact Option.noConfusion hq
    · rw [← he] at hq
      have hfq : clamp01 ((v - 0.5) * c + 0.5) = q := by injection hq
      rw [← hfq]
      exact le_max_left 0 _
  · obtain ⟨o', _, he⟩ := List.mem_map.1 ho
    rcases o' with _ | v
    · rw [← he] at hq
      exact Option.noConfusion hq
    · rw [← he] at hq
      have hfq : clamp01 ((v - 0.5) * c + 0.5) = q := by injection hq
      rw [← hfq]
      exact le_max_left 0 _

end AsciiWorker

namespace AsciiWorker

theorem flatten_length_singletons {α : Type} :
    ∀ (L : List (List α)), (∀ e ∈ L, e.length = 1) → L.flatten.length = L.length := by
  intro L
  induction L with
  | nil => intro _; rfl
  | cons e L ih =>
      intro he
      rw [List.flatten_cons, List.length_append, List.length_cons,
        he e (List.mem_cons_self e L), ih (fun x hx => he x (List.mem_cons_of_mem e hx))]
      omega

theorem sum_replicate_nat : ∀ (n a : ℕ), (List.replicate n a).sum = n * a := by
  intro n a
  induction n with
  | zero => simp
  | succ n ih =>
      rw [List.replicate_succ, List.sum_cons, ih]
      ring

/-- C9 (amended): provided every luminance survives the contrast stage as a
number — which can fail only when histogram equalization meets a single
occupied bin, see the counterexample — and the ramp is nonempty and free of
newlines, `brightnessMapping` produces exactly `height` rows of exactly
`width` ramp characters each followed by one newline, hence total length
`height × (width + 1)` with no other newline characters. -/
theorem brightnessMapping_shape (pixels : List ℕ) (w h : ℕ) (s : Settings)
    (hw : 0 < w) (hh : 0 < h) (hne : s.chars ≠ []) (hnl : '\n' ∉ s.chars)
    (hlen : pixels.length = 4 * (w * h)) (hbyte : ∀ p ∈ pixels, p < 256)
    (hnum : ∀ o ∈ (brightnessMapping pixels w h s).2, o ≠ none) :
    ∃ rows : List (List Char),
      (brightnessMapping pixels w h s).1 = (rows.map (fun r => r ++ ['\n'])).flatten ∧
      rows.length = h ∧ (∀ r ∈ rows, r.length = w ∧ '\n' ∉ r) ∧
      (brightnessMapping pixels w h s).1.length = h * (w + 1) := by
  set chars := if s.invert then s.chars.reverse else s.chars with hchars
  have hcne : chars ≠ [] := by
    rw [hchars]
    cases s.invert <;> simpa using hne
  have hcnl : '\n' ∉ chars := by
    rw [hchars]
    cases s.invert <;> simp [hne, hnl]
  set bv := applyContrast (brightnessValues pixels w h) s.contrast s.histogram
    with hbv
  have hbvlen : bv.length = w * h := by
    rw [hbv, applyContrast_length]
    simp [brightnessValues]
  have hcell : ∀ y x, y < h → x < w →
      ∃ c ∈ chars, cellStr (jsCharAt chars (bv.getD (y * w + x) none)) = [c] := by
    intro y x hy hx
    have hidx : y * w + x < bv.length := hbvlen ▸ cell_index_lt y x w h hy hx
    have hget : bv.get? (y * w + x) = some (bv.getD (y * w + x) none) :=
      get?_eq_some_getD bv (y * w + x) none hidx
    have hmem : bv.getD (y * w + x) none ∈ bv := List.get?_mem hget
    rcases ho : bv.getD (y * w + x) none with _ | q
    · rw [ho] at hmem
      exact absurd rfl (hnum none hmem)
    · rw [ho] at hmem
      have hq0 : 0 ≤ q := applyContrast_some_nonneg (brightnessValues pixels w h)
        s.contrast s.histogram (brightnessValues_bounds pixels w h hbyte)
        (some q) hmem q rfl
      have hfl0 : 0 ≤ qfloor (q * (chars.length : ℚ)) := by
        rw [qfloor_eq_floor]
        exact Int.le_floor.2 (by positivity)
      have hn1 : 1 ≤ chars.length := by
        rcases chars with _ | ⟨c, cs⟩
        · exact absurd rfl hcne
        · simp
      simp only [jsCharAt]
      rw [if_neg (by omega)]
      set i : ℤ := min ((chars.length : ℤ) - 1) (qfloor (q * (chars.length : ℚ)))
        with hi
      have hilt : i.toNat < chars.length := by omega
      have hgc : chars.get? i.toNat = some (chars.getD i.toNat ' ') :=
        get?_eq_some_getD chars i.toNat ' ' hilt
      exact ⟨chars.getD i.toNat ' ', List.get?_mem hgc, by rw [hgc]; rfl⟩
  refine ⟨(List.range h).map (fun y =>
    ((List.range w).map (fun x =>
      cellStr (jsCharAt chars (bv.getD (y * w + x) none)))).flatten), ?_, ?_, ?_, ?_⟩
  · show asciiFrom chars bv w h = _
    rw [asciiFrom, List.map_map]
    rfl
  · simp
  · intro r hr
    obtain ⟨y, hy, rfl⟩ := List.mem_map.1 hr
    have hy' : y < h := List.mem_range.1 hy
    have hone : ∀ e ∈ (List.range w).map (fun x =>
        cellStr (jsCharAt chars (bv.getD (y * w + x) none))), e.length = 1 := by
      intro e he
      obtain ⟨x, hx, rfl⟩ := List.mem_map.1 he
      obtain ⟨c, _, hc⟩ := hcell y x hy' (List.mem_range.1 hx)
      rw [hc]
      rfl
    constructor
    · rw [flatten_length_singletons _ hone]
      simp
    · intro hmem
      obtain ⟨e, hemem, hein⟩ := List.mem_flatten.1 hmem
      obtain ⟨x, hx, rfl⟩ := List.mem_map.1 hemem
      obtain ⟨c, hcmem, hc⟩ := hcell y x hy' (List.mem_range.1 hx)
      rw [hc] at hein
      simp only [List.mem_singleton] at hein
      exact hcnl (hein ▸ hcmem)
  · show (asciiFrom chars bv w h).length = h * (w + 1)
    rw [asciiFrom, List.length_flatten]
    have : ((List.range h).map (fun y =>
        ((List.range w).map (fun x =>
          cellStr (jsCharAt chars (bv.getD (y * w + x) none)))).flatten
          ++ ['\n'])).map List.length = List.replicate h (w + 1) := by
      refine List.eq_replicate_iff.2 ⟨by simp, ?_⟩
      intro b hb
      obtain ⟨yy, hyy, rfl⟩ := List.mem_map.1 hb
      obtain ⟨y, hy, rfl⟩ := List.mem_map.1 hyy
      have hy' : y < h := List.mem_range.1 hy
      have hone : ∀ e ∈ (List.range w).map (fun x =>
          cellStr (jsCharAt chars (bv.getD (y * w + x) none))), e.length = 1 := by
        intro e he
        obtain ⟨x, hx, rfl⟩ := List.mem_map.1 he
        obtain ⟨c, _, hc⟩ := hcell y x hy' (List.mem_range.1 hx)
        rw [hc]
        rfl
      rw [List.length_append, flatten_length_singletons _ hone]
      simp
    rw [this, sum_replicate_nat]

end AsciiWorker

namespace AsciiWorker

unseal Rat.ofScientific Rat.mul Rat.inv Rat.add Rat.sub in
/-- C9 counterexample: with histogram equalization enabled on a 1×1 black
image every luminance falls into one bin, the unguarded equalization yields
NaN, the cell renders as the text `undefined`, and the ascii string has
length 10 instead of `1 × (1 + 1) = 2`. -/
theorem brightnessMapping_shape_cex :
    (brightnessMapping [0, 0, 0, 255] 1 1
      ⟨['.', '#'], false, 1, true, ColorMode.monochrome, 1, 1/2, 1, false,
        0, 0, 0⟩).1.length ≠ 1 * (1 + 1) := by
  decide

unseal Rat.ofScientific Rat.mul Rat.inv Rat.add Rat.sub in
/-- C9 witness: the shape invariant at a concrete 2×1 image without
histogram equalization. -/
theorem brightnessMapping_shape_witness :
    ∃ rows : List (List Char),
      (brightnessMapping [0, 0, 0, 255, 255, 255, 255, 255] 2 1
        ⟨['.', '#'], false, 1, false, ColorMode.monochrome, 1, 1/2, 1, false,
          0, 0, 0⟩).1 = (rows.map (fun r => r ++ ['\n'])).flatten ∧
      rows.length = 1 ∧ (∀ r ∈ rows, r.length = 2 ∧ '\n' ∉ r) ∧
      (brightnessMapping [0, 0, 0, 255, 255, 255, 255, 255] 2 1
        ⟨['.', '#'], false, 1, false, ColorMode.monochrome, 1, 1/2, 1, false,
          0, 0, 0⟩).1.length = 1 * (2 + 1) :=
  brightnessMapping_shape [0, 0, 0, 255, 255, 255, 255, 255] 2 1
    ⟨['.', '#'], false, 1, false, ColorMode.monochrome, 1, 1/2, 1, false, 0, 0, 0⟩
    (by decide) (by decide) (by decide) (by decide) (by decide) (by decide)
    (by decide)

end AsciiWorker

namespace AsciiWorker

/-- The maximal runs of adjacent equal-style cells of a row, each paired
with its accumulated escaped characters (the specification's notion of a
styled run in §4.6). -/
def runsBy : List (List Char × Char) → List (List Char × List Char)
  | [] => []
  | c :: cs =>
      match runsBy cs with
      | [] => [(c.1, escChar c.2)]
      | (col, chs) :: rest =>
          if c.1 = col then (col, escChar c.2 ++ chs) :: rest
          else (c.1, escChar c.2) :: (col, chs) :: rest

/-- Merging an open run into a run list. -/
def mergeRun (c0 cur : List Char) :
    List (List Char × List Char) → List (List Char × List Char)
  | [] => [(c0, cur)]
  | (col, chs) :: rest =>
      if c0 = col then (c0, cur ++ chs) :: rest
      else (c0, cur) :: (col, chs) :: rest

/-- Rendering of a run list into spans. -/
def spansOf (render : List Char → List Char → List Char)
    (rs : List (List Char × List Char)) : List (List Char) :=
  rs.map (fun rc => render rc.1 rc.2)

theorem runsBy_cons (c : List Char × Char) (cs : List (List Char × Char)) :
    runsBy (c :: cs) = mergeRun c.1 (escChar c.2) (runsBy cs) := by
  rw [runsBy]
  split
  · rename_i heq
    rw [heq, mergeRun]
  · rename_i col chs rest heq
    rw [heq, mergeRun]
    by_cases h : c.1 = col
    · rw [if_pos h, if_pos h, h]
    · rw [if_neg h, if_neg h]

theorem mergeRun_mergeRun (c0 cur esc : List Char)
    (R : List (List Char × List Char)) :
    mergeRun c0 cur (mergeRun c0 esc R) = mergeRun c0 (cur ++ esc) R := by
  rcases R with _ | ⟨⟨col, chs⟩, rest⟩
  · simp [mergeRun]
  · rw [mergeRun]
    by_cases h : c0 = col
    · rw [if_pos h, mergeRun, if_pos rfl, mergeRun, if_pos h, List.append_assoc]
    · rw [if_neg h, mergeRun, if_pos rfl, mergeRun, if_neg h]

theorem mergeRun_ne_head (c0 cur a x : List Char)
    (R : List (List Char × List Char)) (h : c0 ≠ a) :
    mergeRun c0 cur (mergeRun a x R) = (c0, cur) :: mergeRun a x R := by
  rcases R with _ | ⟨⟨col, chs⟩, rest⟩
  · rw [mergeRun, mergeRun, if_neg h]
  · rw [mergeRun]
    by_cases hac : a = col
    · rw [if_pos hac, mergeRun, if_neg h]
    · rw [if_neg hac, mergeRun, if_neg h]

theorem foldl_stepCell_flush (render : List Char → List Char → List Char) :
    ∀ (cells : List (List Char × Char)) (c0 cur : List Char)
      (parts : List (List Char)),
      flushRow render (cells.foldl (stepCell render) (some c0, cur, parts)) =
        parts ++ spansOf render (mergeRun c0 cur (runsBy cells)) := by
  intro cells
  induction cells with
  | nil =>
      intro c0 cur parts
      rw [List.foldl_nil, flushRow, runsBy, mergeRun, spansOf]
      rfl
  | cons c cs ih =>
      intro c0 cur parts
      rw [List.foldl_cons, runsBy_cons, stepCell]
      by_cases h : some c.1 = some c0
      · have hc : c.1 = c0 := Option.some_inj.1 h
        rw [if_pos h, ih, hc, mergeRun_mergeRun]
      · have hc : c0 ≠ c.1 := fun he => h (by rw [he])
        rw [if_neg h, ih, mergeRun_ne_head _ _ _ _ _ hc]
        simp only [spansOf, List.map_cons]
        rw [List.append_assoc]
        rfl

theorem runLoop_eq_runs (render : List Char → List Char → List Char)
    (cells : List (List Char × Char)) :
    runLoop render cells = spansOf render (runsBy cells) := by
  rcases cells with _ | ⟨c, cs⟩
  · rfl
  · rw [runLoop, List.foldl_cons, stepCell]
    rw [if_neg (by simp)]
    show flushRow render (cs.foldl (stepCell render)
      (some c.1, escChar c.2, [])) = _
    rw [foldl_stepCell_flush, runsBy_cons]
    rfl

theorem foldl_skip_eq (render : List Char → List Char → List Char)
    (cellAt : ℕ → Option (List Char × Char)) :
    ∀ (l : List ℕ) (st : RunState),
      l.foldl (fun st x =>
        match cellAt x with
        | none => st
        | some cell => stepCell render st cell) st =
      (l.filterMap cellAt).foldl (stepCell render) st := by
  intro l
  induction l with
  | nil => intro st; rfl
  | cons x xs ih =>
      intro st
      rcases hx : cellAt x with _ | cell
      · simp only [List.foldl_cons, List.filterMap_cons, hx]
        exact ih st
      · simp only [List.foldl_cons, List.filterMap_cons, hx]
        exact ih _

theorem runLoopSkip_eq_runLoop (render : List Char → List Char → List Char)
    (cellAt : ℕ → Option (List Char × Char)) (w : ℕ) :
    runLoopSkip render cellAt w =
      runLoop render ((List.range w).filterMap cellAt) := by
  rw [runLoopSkip, runLoop, foldl_skip_eq]

end AsciiWorker

namespace AsciiWorker

/-- C6: for every non-monochrome input, `applyColorToAscii` emits, per row,
exactly one `<span>` per maximal run of adjacent cells with identical
computed color strings (`runsBy` groups a row's processed cells into maximal
equal-style runs), each followed by the row's newline; and a row of five
identically-styled cells yields exactly one span holding all five escaped
characters. -/
theorem applyColorToAscii_run_merging (ascii : List Char) (pixels : List ℕ)
    (w h : ℕ) (bv : List (Option ℚ)) (s : Settings)
    (palette : Option (List RGB)) (hmode : s.colorMode ≠ ColorMode.monochrome) :
    applyColorToAscii ascii pixels w h bv s palette =
      some (((List.range h).map (fun y =>
        (spansOf spanRender (runsBy ((List.range w).filterMap
          (cellAtPos (splitNl ascii) pixels bv s palette w y)))).flatten
          ++ ['\n'])).flatten) ∧
    (∀ (color : List Char) (ch : Char),
      runLoop spanRender (List.replicate 5 (color, ch)) =
        [spanRender color ((List.replicate 5 (escChar ch)).flatten)]) := by
  constructor
  · rw [applyColorToAscii, if_neg hmode]
    show some ((List.map (fun y =>
      (runLoopSkip spanRender (cellAtPos (splitNl ascii) pixels bv s palette w y)
        w).flatten ++ ['\n']) (List.range h)).flatten) = _
    congr 1
    congr 1
    apply List.map_congr_left
    intro y _
    rw [runLoopSkip_eq_runLoop, runLoop_eq_runs]
  · intro color ch
    rw [runLoop_eq_runs]
    have h5 : runsBy (List.replicate 5 (color, ch)) =
        [(color, (List.replicate 5 (escChar ch)).flatten)] := by
      simp [List.replicate, runsBy]
    rw [h5]
    rfl

/-- C6 witness: a 2×1 truecolor conversion and a concrete 5-cell run. -/
theorem applyColorToAscii_run_merging_witness :
    applyColorToAscii "##\n".toList [0, 0, 0, 255, 0, 0, 0, 255] 2 1
        [some 0, some 0]
        ⟨['#'], false, 1, false, ColorMode.truecolor, 1, 0.5, 1, false, 0, 0, 0⟩
        none =
      some (((List.range 1).map (fun y =>
        (spansOf spanRender (runsBy ((List.range 2).filterMap
          (cellAtPos (splitNl "##\n".toList) [0, 0, 0, 255, 0, 0, 0, 255]
            [some 0, some 0]
            ⟨['#'], false, 1, false, ColorMode.truecolor, 1, 0.5, 1, false,
              0, 0, 0⟩ none 2 y)))).flatten ++ ['\n'])).flatten) ∧
      runLoop spanRender (List.replicate 5 ("c".toList, 'x')) =
        [spanRender "c".toList ((List.replicate 5 (escChar 'x')).flatten)] := by
  have H := applyColorToAscii_run_merging "##\n".toList
    [0, 0, 0, 255, 0, 0, 0, 255] 2 1 [some 0, some 0]
    ⟨['#'], false, 1, false, ColorMode.truecolor, 1, 0.5, 1, false, 0, 0, 0⟩
    none (by decide)
  exact ⟨H.1, H.2 "c".toList 'x'⟩

end AsciiWorker

namespace AsciiWorker

unseal Rat.ofScientific Rat.mul Rat.inv Rat.add Rat.sub in
/-- C10: in the optimized worker's `getColorString`, an opacity is rendered
without an alpha component exactly when `Math.round(opacity·100) ≥ 100`,
which holds exactly for `opacity ≥ 0.995`; such cells render identically to
opacity exactly 1 (hence merge into the same run), while any opacity in
`[0, 0.995)` renders as `rgba(r,g,b,0.DD)` with the alpha fixed to exactly
two decimal digits. -/
theorem getColorStringOpt_threshold (r g b : ℕ) (opacity : ℚ) :
    (¬ jsRound (opacity * 100) < 100 ↔ 199/200 ≤ opacity) ∧
    (199/200 ≤ opacity →
      getColorStringOpt r g b opacity =
        "rgb(".toList ++ (toString r).toList ++ ',' :: (toString g).toList ++
          ',' :: (toString b).toList ++ [')'] ∧
      getColorStringOpt r g b opacity = getColorStringOpt r g b 1) ∧
    (0 ≤ opacity → opacity < 199/200 →
      ∃ frac : List Char, frac.length = 2 ∧
        getColorStringOpt r g b opacity =
          "rgba(".toList ++ (toString r).toList ++ ',' :: (toString g).toList ++
            ',' :: (toString b).toList ++ ',' :: ('0' :: '.' :: frac) ++ [')']) := by
  have hiff : ¬ jsRound (opacity * 100) < 100 ↔ 199/200 ≤ opacity := by
    rw [not_lt, jsRound, qfloor_eq_floor, Int.le_floor]
    push_cast
    constructor <;> intro h <;> linarith
  refine ⟨hiff, ?_, ?_⟩
  · intro h
    have hbig : ¬ jsRound (opacity * 100) < 100 := hiff.2 h
    have h1 : ¬ jsRound ((1 : ℚ) * 100) < 100 := by decide
    rw [getColorStringOpt, getColorStringOpt, if_neg hbig, if_neg h1]
    exact ⟨rfl, rfl⟩
  · intro h0 hlt
    have hsmall : jsRound (opacity * 100) < 100 := by
      by_contra hc
      exact absurd (hiff.1 hc) (not_le.2 hlt)
    have hn0 : 0 ≤ jsRound (opacity * 100) := by
      rw [jsRound, qfloor_eq_floor]
      exact Int.le_floor.2 (by push_cast; linarith)
    refine ⟨twoDigits ((jsRound (opacity * 100)).toNat % 100), rfl, ?_⟩
    rw [getColorStringOpt, if_pos hsmall]
    have hfix : toFixed2 ((jsRound (opacity * 100) : ℚ) / 100) =
        '0' :: '.' :: twoDigits ((jsRound (opacity * 100)).toNat % 100) := by
      set n : ℤ := jsRound (opacity * 100) with hn
      have hnn : ¬ (n : ℚ) / 100 < 0 := by
        rw [not_lt]
        positivity
      rw [toFixed2, if_neg hnn]
      have hmul : (n : ℚ) / 100 * 100 = (n : ℚ) := by
        field_simp
      have hfl : qfloor ((n : ℚ) / 100 * 100 + 1/2) = n := by
        rw [hmul, qfloor_eq_floor, Int.floor_eq_iff]
        constructor
        · push_cast
          linarith
        · push_cast
          linarith
      rw [hfl, fix2Render, Nat.div_eq_of_lt (by omega)]
      rfl
    rw [hfix]

unseal Rat.ofScientific Rat.mul Rat.inv Rat.add Rat.sub in
/-- C10 witness: opacity `0.997` renders exactly like opacity 1 and opacity
`0.25` renders with a two-digit alpha. -/
theorem getColorStringOpt_threshold_witness :
    getColorStringOpt 1 2 3 (997/1000) = getColorStringOpt 1 2 3 1 ∧
      ∃ frac : List Char, frac.length = 2 ∧
        getColorStringOpt 1 2 3 (1/4) =
          "rgba(".toList ++ (toString 1).toList ++ ',' :: (toString 2).toList ++
            ',' :: (toString 3).toList ++ ',' :: ('0' :: '.' :: frac) ++ [')'] := by
  have H1 := getColorStringOpt_threshold 1 2 3 (997/1000)
  have H2 := getColorStringOpt_threshold 1 2 3 (1/4)
  exact ⟨(H1.2.1 (by norm_num)).2, H2.2.2 (by norm_num) (by norm_num)⟩

end AsciiWorker

namespace AsciiWorker

/-- Holds when the worker's cached palette does not match the requested
`(numColors, saturation)` key, so the handler must recompute from the
message's own pixels. -/
def cacheMiss (st : WorkerState) (numColors : ℕ) (sat : ℚ) : Prop :=
  match st.cachedPalette with
  | none => True
  | some (n, s, _) => ¬(n = numColors ∧ s = sat)

/-- C2 (amended): the posted `(ascii, html)` of a `convert` message is
independent of the cross-call `cachedPalette` state for every non-adaptive
color mode; for an adaptive mode it is guaranteed identical across two runs
whenever neither run's cache holds an entry keyed `(numColors, saturation)`
— in particular after `clearCache` — since both then quantize the message's
own pixels.  With a matching cache entry computed from different pixels the
results can differ (see the counterexample). -/
theorem handleConvert_cache_independence (m : ConvertMsg) (st1 st2 : WorkerState) :
    ((∀ k, m.settings.colorMode ≠ ColorMode.adaptive k) →
      (handleConvert m st1).1 = (handleConvert m st2).1) ∧
    (∀ k, m.settings.colorMode = ColorMode.adaptive k →
      cacheMiss st1 k m.settings.saturation →
      cacheMiss st2 k m.settings.saturation →
      (handleConvert m st1).1 = (handleConvert m st2).1) := by
  constructor
  · intro hnot
    cases hm : m.settings.colorMode with
    | adaptive k => exact absurd hm (hnot k)
    | monochrome => cases hbo : m.settings.brightnessOpacity <;> simp [handleConvert, hm, hbo]
    | ansi256 => simp [handleConvert, determinePalette, hm]
    | truecolor => simp [handleConvert, determinePalette, hm]
  · intro k hm hm1 hm2
    have hp : ∀ st : WorkerState, cacheMiss st k m.settings.saturation →
        (determinePalette m st).1 =
          some (quantizeColorsWorker m.pixels k m.settings.saturation) := by
      intro st hmiss
      rcases hcp : st.cachedPalette with _ | ⟨n, sat', cols⟩
      · simp [determinePalette, hm, hcp]
      · unfold cacheMiss at hmiss
        rw [hcp] at hmiss
        simp [determinePalette, hm, hcp, hmiss]
    simp only [handleConvert]
    rw [if_neg (by simp [hm]), if_neg (by simp [hm])]
    rw [hp st1 hm1, hp st2 hm2]

unseal Rat.ofScientific Rat.mul Rat.inv Rat.add Rat.sub in
/-- C2 counterexample: two runs of the handler on the byte-identical
`convert` message (a 1×1 blue image, mode `adaptive2`) post different html
depending on the cachedPalette left by an earlier message with different
(red) pixels: the fresh run colors the cell `rgb(0,0,255)`, the stale run
`rgb(255,0,0)`. -/
theorem handleConvert_cache_dependent_cex :
    (handleConvert
        ⟨[0, 0, 255, 255], 1, 1,
          ⟨['#'], false, 1, false, ColorMode.adaptive 2, 1, 0.5, 1, false,
            0, 0, 0⟩, []⟩ ⟨none⟩).1 ≠
      (handleConvert
        ⟨[0, 0, 255, 255], 1, 1,
          ⟨['#'], false, 1, false, ColorMode.adaptive 2, 1, 0.5, 1, false,
            0, 0, 0⟩, []⟩
        ((handleConvert
          ⟨[255, 0, 0, 255], 1, 1,
            ⟨['#'], false, 1, false, ColorMode.adaptive 2, 1, 0.5, 1, false,
              0, 0, 0⟩, []⟩ ⟨none⟩).2)).1 := by
  decide

unseal Rat.ofScientific Rat.mul Rat.inv Rat.add Rat.sub in
/-- C2 witness: with both caches missing the `(2, 1)` key — one empty, one
holding an entry for 5 colors — the two runs post identical results. -/
theorem handleConvert_cache_independence_witness :
    (handleConvert
        ⟨[0, 0, 255, 255], 1, 1,
          ⟨['#'], false, 1, false, ColorMode.adaptive 2, 1, 0.5, 1, false,
            0, 0, 0⟩, []⟩ ⟨none⟩).1 =
      (handleConvert
        ⟨[0, 0, 255, 255], 1, 1,
          ⟨['#'], false, 1, false, ColorMode.adaptive 2, 1, 0.5, 1, false,
            0, 0, 0⟩, []⟩ ⟨some (5, 1, [(7, 7, 7)])⟩).1 :=
  (handleConvert_cache_independence
    ⟨[0, 0, 255, 255], 1, 1,
      ⟨['#'], false, 1, false, ColorMode.adaptive 2, 1, 0.5, 1, false,
        0, 0, 0⟩, []⟩ ⟨none⟩ ⟨some (5, 1, [(7, 7, 7)])⟩).2 2 rfl trivial
    (by simp [cacheMiss])

end AsciiWorker
